import Mathlib

/-!
Shallow embedding of the tabulation and social-choice engine of the
HacktheAi voting service (`src/app/routes/vote_routes.py`,
`src/app/routes/ballot_routes.py`, `src/app/models.py`).

Python dictionaries keyed by `int` are embedded either as association
lists (`List (Int × α)`) when the code observes dict emptiness or value
sets, or as total functions with the code's `.get(k, default)` default
when only pointwise access occurs.  `datetime` timestamps are embedded
as integers (only their total order is used).  Float quantities
(`risk_limit`, `epsilon`, the Gaussian draw) are embedded as rationals;
the random draw is an oracle parameter.  An HTTP exception raised by a
route is an `Except.error (statusCode, detail)` result; since every
`raise` in the embedded routes occurs before any mutation, the state on
an error is unchanged by construction.
-/

namespace Elect

/-- `app/models.py` `Voter` (pydantic model; `age` is validated ≥ 18 at
registration, but the field itself is any int). -/
structure Voter where
  voter_id : Int
  name : String
  email : String
  age : Int
deriving DecidableEq, Repr

/-- `app/models.py` `Candidate` (`party : Optional[str]`). -/
structure Candidate where
  candidate_id : Int
  name : String
  party : Option String
deriving DecidableEq, Repr

/-- `vote_routes.py` `VoteRecord` (timestamp embedded as `Int`). -/
structure VoteRecord where
  voter_id : Int
  timestamp : Int
  weight : Nat
deriving DecidableEq, Repr

/-- An HTTP error: status code and detail string. -/
abbrev HErr := Nat × String

/-- Python dict lookup `d.get(k)` on an association list. -/
def lookupA {α : Type} (l : List (Int × α)) (k : Int) : Option α :=
  (l.find? (fun e => e.1 = k)).map (fun e => e.2)

/-- Python dict lookup with default, `d.get(k, dflt)`. -/
def lookupD {α : Type} (l : List (Int × α)) (k : Int) (dflt : α) : α :=
  (lookupA l k).getD dflt

/-- Python dict assignment `d[k] = v` on an association list: replace in
place if the key is present, else append. -/
def setA {α : Type} (l : List (Int × α)) (k : Int) (v : α) : List (Int × α) :=
  if (l.find? (fun e => e.1 = k)).isSome then
    l.map (fun e => if e.1 = k then (k, v) else e)
  else
    l ++ [(k, v)]

/-- The mutable module-level state of `vote_routes.py` together with the
voter and candidate registries it imports. `voter_voted` and
`vote_timeline` are read only through `.get(k, default)` /
`.setdefault(k, [])`, so they are embedded as total functions with the
default built in. -/
structure VState where
  voters : List (Int × Voter)
  candidates : List (Int × Candidate)
  candidate_votes : List (Int × Nat)
  voter_voted : Int → Bool
  vote_timeline : Int → List VoteRecord

/-- `vote_routes.py` `cast_vote` (`POST /votes/`). -/
def cast_vote (st : VState) (voter_id candidate_id : Int) (now : Int) :
    Except HErr (VState × String) :=
  match lookupA st.voters voter_id with
  | none => .error (404, "Voter not found.")
  | some v =>
    if v.age < 18 then .error (403, "Voter must be at least 18 years old.")
    else if (lookupA st.candidates candidate_id).isNone then
      .error (404, "Candidate not found.")
    else if st.voter_voted voter_id then
      .error (409, "Voter has already cast a vote.")
    else
      .ok ({ st with
              candidate_votes :=
                setA st.candidate_votes candidate_id
                  (lookupD st.candidate_votes candidate_id 0 + 1),
              voter_voted := fun x => if x = voter_id then true else st.voter_voted x,
              vote_timeline := fun c =>
                if c = candidate_id then st.vote_timeline c ++ [⟨voter_id, now, 1⟩]
                else st.vote_timeline c },
            s!"Voter {voter_id} successfully voted for candidate {candidate_id}")

/-- `vote_routes.py` `cast_weighted_vote` (`POST /votes/weighted`). -/
def cast_weighted_vote (st : VState) (voter_id candidate_id : Int)
    (profile_updated : Bool) (now : Int) : Except HErr (VState × String) :=
  match lookupA st.voters voter_id with
  | none => .error (404, "Voter not found.")
  | some v =>
    if v.age < 18 then .error (403, "Voter must be at least 18 years old.")
    else if (lookupA st.candidates candidate_id).isNone then
      .error (404, "Candidate not found.")
    else if st.voter_voted voter_id then
      .error (409, "Voter has already cast a vote.")
    else
      let weight : Nat := if profile_updated then 2 else 1
      .ok ({ st with
              candidate_votes :=
                setA st.candidate_votes candidate_id
                  (lookupD st.candidate_votes candidate_id 0 + weight),
              voter_voted := fun x => if x = voter_id then true else st.voter_voted x,
              vote_timeline := fun c =>
                if c = candidate_id then st.vote_timeline c ++ [⟨voter_id, now, weight⟩]
                else st.vote_timeline c },
            s!"Voter {voter_id} cast a weighted vote ({weight}) for candidate {candidate_id}")

/-- One entry of the `winners` list returned by `get_winner`. -/
structure WinnerEntry where
  candidate_id : Int
  name : String
  party : Option String
  votes : Nat
deriving DecidableEq, Repr

/-- Return value of `get_winner`. -/
structure WinnerResult where
  winners : List WinnerEntry
  max_votes : Nat
deriving DecidableEq, Repr

/-- Python `max(values, default=0)`. -/
def maxValues (l : List Nat) : Nat := l.foldl max 0

/-- `vote_routes.py` `get_winner` (`GET /votes/results/winner`). -/
def get_winner (st : VState) : Except HErr WinnerResult :=
  if st.candidate_votes.isEmpty then
    .error (404, "No votes have been cast yet.")
  else
    let mx := maxValues (st.candidate_votes.map (fun e => e.2))
    .ok { winners :=
            (st.candidates.map (fun e => e.2)).filterMap (fun c =>
              if lookupD st.candidate_votes c.candidate_id 0 = mx then
                some ⟨c.candidate_id, c.name, c.party,
                      lookupD st.candidate_votes c.candidate_id 0⟩
              else none),
          max_votes := mx }

/-- Return value of `get_votes_in_range` (the route serialises each
record to a dict; the embedding keeps the records themselves). -/
structure RangeResult where
  candidate_id : Int
  name : String
  votes_in_range : List VoteRecord
  total_weight : Nat
deriving DecidableEq, Repr

/-- `vote_routes.py` `get_votes_in_range` (`GET /votes/range`). -/
def get_votes_in_range (st : VState) (candidate_id : Int)
    (from_time to_time : Int) : Except HErr RangeResult :=
  match lookupA st.candidates candidate_id with
  | none => .error (404, "Candidate not found.")
  | some c =>
    let filtered := (st.vote_timeline candidate_id).filter
      (fun r => decide (from_time ≤ r.timestamp) && decide (r.timestamp ≤ to_time))
    .ok ⟨candidate_id, c.name, filtered, (filtered.map (fun r => r.weight)).sum⟩

/-- A vote-casting operation against the plurality store (the two
mutating endpoints of `vote_routes.py`), with its capture timestamp. -/
inductive VOp where
  | plain (voter_id candidate_id now : Int)
  | weighted (voter_id candidate_id : Int) (profile_updated : Bool) (now : Int)
deriving DecidableEq, Repr

/-- Run one operation against the store; a raised HTTP error leaves the
state unchanged (every `raise` in the source precedes all mutation). -/
def stepOp (st : VState) (op : VOp) : VState :=
  match op with
  | .plain v c now =>
    match cast_vote st v c now with
    | .ok (st2, _) => st2
    | .error _ => st
  | .weighted v c p now =>
    match cast_weighted_vote st v c p now with
    | .ok (st2, _) => st2
    | .error _ => st

/-- Run a sequence of vote-casting operations. -/
def runOps (st : VState) (ops : List VOp) : VState :=
  ops.foldl stepOp st

/-- Initial state of `vote_routes.py`: empty tally, no voter marked,
empty timelines; the registries hold whatever the (out-of-scope)
voter/candidate routes have stored. -/
def initVState (voters : List (Int × Voter)) (cands : List (Int × Candidate)) : VState :=
  ⟨voters, cands, [], fun _ => false, fun _ => []⟩

/-- `ballot_routes.py` `EncryptedBallot`. -/
structure EncryptedBallot where
  voter_id : Int
  candidate_id : Int
  ciphertext : String
  proof : String
deriving DecidableEq, Repr

/-- `ballot_routes.py` `RankedBallot`. -/
structure RankedBallot where
  voter_id : Int
  ranking : List Int
deriving DecidableEq, Repr

/-- The mutable module-level state of `ballot_routes.py`. -/
structure BState where
  encrypted_ballots : List EncryptedBallot
  ranked_ballots : List RankedBallot
  encrypted_voter_set : Int → Bool
  ranked_voter_set : Int → Bool

/-- `ballot_routes.py` `submit_encrypted_ballot` (`POST /api/ballots/encrypted`);
the success payload carries `total_ballots`.  Python `not s` on a string
is the emptiness test. -/
def submit_encrypted_ballot (st : BState) (ballot : EncryptedBallot) :
    Except HErr (BState × Nat) :=
  if st.encrypted_voter_set ballot.voter_id then
    .error (409, "Voter has already submitted an encrypted ballot.")
  else if ballot.ciphertext = "" ∨ ballot.proof = "" then
    .error (400, "Invalid encrypted ballot.")
  else
    .ok ({ st with
            encrypted_ballots := st.encrypted_ballots ++ [ballot],
            encrypted_voter_set := fun v =>
              if v = ballot.voter_id then true else st.encrypted_voter_set v },
         (st.encrypted_ballots ++ [ballot]).length)

/-- `ballot_routes.py` `submit_ranked_ballot` (`POST /api/ballots/ranked`);
the success payload carries `total_ranked`.  No check at all is made on
the ranking list itself. -/
def submit_ranked_ballot (st : BState) (ballot : RankedBallot) :
    Except HErr (BState × Nat) :=
  if st.ranked_voter_set ballot.voter_id then
    .error (409, "Voter has already submitted a ranked ballot.")
  else
    .ok ({ st with
            ranked_ballots := st.ranked_ballots ++ [ballot],
            ranked_voter_set := fun v =>
              if v = ballot.voter_id then true else st.ranked_voter_set v },
         (st.ranked_ballots ++ [ballot]).length)

/-- Python 3 `round()` on a rational: round half to even. -/
def pyround (q : ℚ) : Int :=
  let f := ⌊q⌋
  let r := q - (f : ℚ)
  if r < 1/2 then f
  else if (1 : ℚ)/2 < r then f + 1
  else if f % 2 = 0 then f else f + 1

/-- Python division `a / b`, which raises `ZeroDivisionError` on `b = 0`
(embedded as `none`). -/
def pydiv (a b : ℚ) : Option ℚ :=
  if b = 0 then none else some (a / b)

/-- Python `int()` applied to a number: truncation toward zero. -/
def pyint (q : ℚ) : Int :=
  if 0 ≤ q then ⌊q⌋ else -⌊-q⌋

/-- Return value of `differential_privacy_query`. -/
structure DPResult where
  candidate_id : Int
  true_count : Nat
  noisy_count : Int
  epsilon : ℚ
deriving DecidableEq, Repr

/-- `ballot_routes.py` `differential_privacy_query` (`POST /api/analytics/dp`).
The Gaussian draw `random.gauss(mu, sigma)` is embedded as an oracle
`gauss : ℚ → ℚ → ℚ` supplied as a parameter; the route calls it exactly
once, with mean `0` and the scale `1/epsilon if epsilon > 0 else 1.0`
(the conditional expression guards the division, which is the only
fallible step, hence the `Option`). -/
def differential_privacy_query (ballots : List EncryptedBallot) (candidate_id : Int)
    (epsilon : ℚ) (gauss : ℚ → ℚ → ℚ) : Option DPResult :=
  let count := (ballots.filter (fun b => decide (b.candidate_id = candidate_id))).length
  match (if 0 < epsilon then pydiv 1 epsilon else some 1) with
  | none => none
  | some sigma =>
    let noise := gauss 0 sigma
    some ⟨candidate_id, count, max 0 (pyround ((count : ℚ) + noise)), epsilon⟩

/-- Return value of `risk_limiting_audit`. -/
structure AuditResult where
  total_ballots : Int
  risk_limit : ℚ
  recommended_sample_size : Int
  method : String
deriving DecidableEq, Repr

/-- `ballot_routes.py` `risk_limiting_audit` (`POST /api/audits/plan`);
`int(total_ballots * risk_limit) + 1` with Python `int()` truncation. -/
def risk_limiting_audit (total_ballots : Int) (risk_limit : ℚ) :
    Except HErr AuditResult :=
  if total_ballots ≤ 0 then .error (400, "Invalid total ballot count.")
  else
    .ok ⟨total_ballots, risk_limit,
         pyint ((total_ballots : ℚ) * risk_limit) + 1,
         "Kaplan-Markov (simulated)"⟩

/-! ### Schulze resolver (`schulze_winner`) -/

/-- The candidate universe: every id appearing in any ranking (the code
builds a Python set; only membership is relevant downstream, the
embedding fixes one duplicate-free enumeration). -/
def schulzeCandidates (ballots : List RankedBallot) : List Int :=
  ((ballots.map (fun b => b.ranking)).flatten).dedup

/-- A pairwise matrix: the nested dict `pairwise`, whose inner dicts are
keyed only by the candidates distinct from the outer key; `none` is a
missing key (`KeyError` on access). -/
abbrev PFun := Int → Int → Option Nat

/-- `pairwise = {c: {d: 0 for d in candidates if d != c} for c in candidates}`. -/
def initPairwise (cands : List Int) : PFun :=
  fun c d => if c ∈ cands ∧ d ∈ cands ∧ c ≠ d then some 0 else none

/-- Dict store `pairwise[c][d] = v`. -/
def updateP (p : PFun) (c d : Int) (v : Nat) : PFun :=
  fun x y => if x = c ∧ y = d then some v else p x y

/-- The ordered pairs `(ranking[i], ranking[j])` with `i < j`, in the
iteration order of the two nested loops over one ballot. -/
def ballotPairs : List Int → List (Int × Int)
  | [] => []
  | c :: rest => rest.map (fun d => (c, d)) ++ ballotPairs rest

/-- Run the increments `pairwise[ci][cj] += 1` over a pair list; a
missing key is a `KeyError` (`none`). -/
def countPairs : PFun → List (Int × Int) → Option PFun
  | p, [] => some p
  | p, cd :: rest =>
    match p cd.1 cd.2 with
    | none => none
    | some v => countPairs (updateP p cd.1 cd.2 (v + 1)) rest

/-- Run the preference-counting loop over all ballots. -/
def countBallots : PFun → List RankedBallot → Option PFun
  | p, [] => some p
  | p, b :: rest =>
    match countPairs p (ballotPairs b.ranking) with
    | none => none
    | some q => countBallots q rest

/-- The full pairwise preference matrix of a ballot set (`none` when the
counting loop raises `KeyError`, which happens exactly on a repeated
candidate id within one ranking). -/
def schulzePairwise (ballots : List RankedBallot) : Option PFun :=
  countBallots (initPairwise (schulzeCandidates ballots)) ballots

/-- Read `pairwise[c][d]`; by the time `strength` is built every needed
key is present (`pairwiseDomain` below), so the default is never used on
the code path. -/
def pval (p : PFun) (c d : Int) : Nat := (p c d).getD 0

/-- The initial strength matrix: `pairwise[c][d]` on edges with a strict
pairwise majority, `0` elsewhere (including the whole diagonal and all
entries outside the candidate universe). -/
def strength0 (cands : List Int) (p : PFun) : Int → Int → Nat :=
  fun c d =>
    if c ∈ cands ∧ d ∈ cands ∧ c ≠ d ∧ pval p d c < pval p c d then pval p c d
    else 0

/-- Dict store `strength[j][k] = v`. -/
def fwUpdate (s : Int → Int → Nat) (j k : Int) (v : Nat) : Int → Int → Nat :=
  fun x y => if x = j ∧ y = k then v else s x y

/-- The innermost loop `for k in candidates` of the strongest-path pass
(for fixed intermediate `i` and row `j`), with its in-place updates. -/
def fwInnerK (i j : Int) (ks : List Int) (s : Int → Int → Nat) : Int → Int → Nat :=
  ks.foldl
    (fun s k =>
      if i ≠ k ∧ j ≠ k then fwUpdate s j k (max (s j k) (min (s j i) (s i k)))
      else s)
    s

/-- The middle loop `for j in candidates` (for fixed intermediate `i`). -/
def fwRowJ (cands : List Int) (i : Int) (js : List Int) (s : Int → Int → Nat) :
    Int → Int → Nat :=
  js.foldl (fun s j => if i ≠ j then fwInnerK i j cands s else s) s

/-- One full phase of the pass for intermediate candidate `i`. -/
def fwPhase (cands : List Int) (i : Int) (s : Int → Int → Nat) : Int → Int → Nat :=
  fwRowJ cands i cands s

/-- The single triple-nested strongest-path pass of `schulze_winner`
(`for i in candidates: for j ...: for k ...`), updating in place. -/
def schulzeFW (cands : List Int) (s : Int → Int → Nat) : Int → Int → Nat :=
  cands.foldl (fun s i => fwPhase cands i s) s

/-- The strength matrix `schulze_winner` computes for a ballot set with
pairwise matrix `p`. -/
def strengthStar (ballots : List RankedBallot) (p : PFun) : Int → Int → Nat :=
  schulzeFW (schulzeCandidates ballots) (strength0 (schulzeCandidates ballots) p)

/-- Outcome of the `schulze_winner` route: an `HTTPException`, an
uncaught `KeyError` (a 500 crash), or the JSON payload
`{winners, audit_trail}`. -/
inductive SResult where
  | err (code : Nat) (detail : String)
  | crash
  | ok (winners : List Int) (audit : PFun)

/-- `ballot_routes.py` `schulze_winner` (`POST /api/results/schulze`). -/
def schulze_winner (ballots : List RankedBallot) : SResult :=
  if ballots.isEmpty then .err 404 "No ranked ballots submitted."
  else
    let cands := schulzeCandidates ballots
    match schulzePairwise ballots with
    | none => .crash
    | some p =>
      let s := strengthStar ballots p
      let winners := cands.filter (fun c =>
        cands.all (fun d => if d ≠ c then decide (s d c ≤ s c d) else true))
      .ok winners p

/-- The winner list of the route, when it returns one (projection used
to state concrete evaluations, since `SResult.ok` carries a function). -/
def schulzeWinnersOf (ballots : List RankedBallot) : Option (List Int) :=
  match schulze_winner ballots with
  | .ok w _ => some w
  | _ => none

/-- One entry of the returned pairwise audit trail, when the route
returns one. -/
def schulzeAuditOf (ballots : List RankedBallot) (c d : Int) : Option Nat :=
  match schulze_winner ballots with
  | .ok _ p => p c d
  | _ => none

/-! ### Specification-side notions used to settle the claims -/

/-- The simultaneous (order-independent) form of one relaxation phase
with intermediate `i` over the candidate square: the value every
in-place phase of the pass turns out to compute. -/
def purePhase (cands : List Int) (i : Int) (s : Int → Int → Nat) : Int → Int → Nat :=
  fun x y =>
    if x ∈ cands ∧ x ≠ i ∧ y ∈ cands ∧ y ≠ i ∧ y ≠ x then
      max (s x y) (min (s x i) (s i y))
    else s x y

/-- Phases for a list of intermediates, in order. -/
def purePass (cands : List Int) (is : List Int) (s : Int → Int → Nat) :
    Int → Int → Nat :=
  is.foldl (fun s i => purePhase cands i s) s

/-- `s` is relaxed for intermediate `i` on the candidate square: no
triple through `i` can improve any entry. -/
def Closed (cands : List Int) (i : Int) (s : Int → Int → Nat) : Prop :=
  ∀ x ∈ cands, ∀ y ∈ cands, x ≠ y → x ≠ i → y ≠ i → min (s x i) (s i y) ≤ s x y

/-- The max-min strength of the chain `x :: l ++ [y]` in the edge-weight
matrix `g`: the minimum weight along its consecutive edges. -/
def chainStrength (g : Int → Int → Nat) : Int → List Int → Int → Nat
  | x, [], y => g x y
  | x, m :: l, y => min (g x m) (chainStrength g m l y)

/-- `v` is the strength of some chain from `x` to `y` whose intermediate
vertices all lie in `S`. -/
def Reach (g : Int → Int → Nat) (S : List Int) (x y : Int) (v : Nat) : Prop :=
  ∃ l, (∀ m ∈ l, m ∈ S) ∧ v = chainStrength g x l y

/-- The key domain of the nested `pairwise` dict: exactly the ordered
pairs of distinct candidates. -/
def PairDom (cands : List Int) (p : PFun) : Prop :=
  ∀ c d, (p c d).isSome ↔ (c ∈ cands ∧ d ∈ cands ∧ c ≠ d)

/-- The tally-is-a-cache invariant of claim C4: for every candidate the
stored tally (0 if absent) is the sum of the weights in its timeline. -/
def TallyInv (st : VState) : Prop :=
  ∀ c, lookupD st.candidate_votes c 0 =
    ((st.vote_timeline c).map (fun r => r.weight)).sum

/-- Run a ranked-ballot submission; a raised error leaves the store
unchanged (the source raises before any mutation). -/
def stepRanked (st : BState) (b : RankedBallot) : BState :=
  match submit_ranked_ballot st b with
  | .ok (st2, _) => st2
  | .error _ => st

/-- Run an encrypted-ballot submission; a raised error leaves the store
unchanged. -/
def stepEncrypted (st : BState) (b : EncryptedBallot) : BState :=
  match submit_encrypted_ballot st b with
  | .ok (st2, _) => st2
  | .error _ => st

/-! ### Concrete data used in examples, witnesses and counterexamples -/

/-- The perfect-cycle ballots `[A,B,C], [B,C,A], [C,A,B]` with `A,B,C`
as candidate ids `1,2,3`. -/
def cycleBallots : List RankedBallot := [⟨1, [1, 2, 3]⟩, ⟨2, [2, 3, 1]⟩, ⟨3, [3, 1, 2]⟩]

/-- The ballots `[A,B,C], [A,C,B], [A,B,C]` with `A` always first. -/
def aFirstBallots : List RankedBallot := [⟨1, [1, 2, 3]⟩, ⟨2, [1, 3, 2]⟩, ⟨3, [1, 2, 3]⟩]

/-- A single stored ranked ballot whose ranking repeats candidate id 5
(accepted by `submit_ranked_ballot`, which performs no ranking check). -/
def dupBallot : List RankedBallot := [⟨1, [5, 5]⟩]

/-- A registered adult voter and one more, for concrete runs. -/
def regVoters : List (Int × Voter) :=
  [(1, ⟨1, "Alice", "alice@example.com", 30⟩), (2, ⟨2, "Bob", "bob@example.com", 40⟩)]

/-- Three registered candidates `A`, `B`, `C` with ids `10`, `11`, `12`. -/
def regCandidates : List (Int × Candidate) :=
  [(10, ⟨10, "A", some "P"⟩), (11, ⟨11, "B", some "Q"⟩), (12, ⟨12, "C", none⟩)]

/-- A store in which candidates `A`, `B`, `C` hold weighted totals
`10`, `10`, `5`. -/
def c6State : VState :=
  { voters := regVoters, candidates := regCandidates,
    candidate_votes := [(10, 10), (11, 10), (12, 5)],
    voter_voted := fun _ => false, vote_timeline := fun _ => [] }

/-- A store whose timeline for candidate 10 holds events at times
`1`, `5` and `99` (the last outside the queried range `[0, 10]`). -/
def c7State : VState :=
  { voters := regVoters, candidates := regCandidates,
    candidate_votes := [(10, 9)],
    voter_voted := fun _ => false,
    vote_timeline := fun c => if c = 10 then [⟨1, 1, 2⟩, ⟨2, 5, 3⟩, ⟨1, 99, 4⟩] else [] }

/-- The plurality store after voter 1's accepted vote for candidate 10. -/
def c5VotedState : VState :=
  stepOp (initVState regVoters regCandidates) (VOp.plain 1 10 0)

/-- A ballot store in which voter 1 has already submitted both a ranked
and an encrypted ballot. -/
def c5BState : BState :=
  ⟨[⟨1, 10, "c", "p"⟩], [⟨1, [1, 2]⟩],
   fun v => decide (v = 1), fun v => decide (v = 1)⟩

/-- The pairwise matrix of the cycle ballots (defined, so that concrete
instantiations can name the matrix `schulzePairwise` produces). -/
def cyclePairwise : PFun := (schulzePairwise cycleBallots).getD (fun _ _ => none)

/-- A non-empty ballot set containing an empty ranking, with every
ranking free of repeats. -/
def emptyPlusBallots : List RankedBallot := [⟨1, []⟩, ⟨2, [7, 8]⟩]

/-! ## The in-place strongest-path pass computes the simultaneous phases

During the phase for intermediate `i`, the code never writes row `i` or
column `i` (the loop guards exclude `j = i` and `k = i`), and each
written entry `(j, k)` is recomputed idempotently from row-`i`/column-`i`
reads; hence each in-place phase equals the simultaneous `purePhase`. -/

theorem fwUpdate_apply (s : Int → Int → Nat) (j k : Int) (v : Nat) (x y : Int) :
    fwUpdate s j k v x y = if x = j ∧ y = k then v else s x y := rfl

theorem fwInnerK_eq (i j : Int) (hij : i ≠ j) (ks : List Int) :
    ∀ (s : Int → Int → Nat) (x y : Int),
      fwInnerK i j ks s x y =
        if x = j ∧ y ∈ ks ∧ y ≠ i ∧ y ≠ j then
          max (s x y) (min (s x i) (s i y))
        else s x y := by
  induction ks with
  | nil =>
    intro s x y
    simp [fwInnerK]
  | cons k ks ih =>
    intro s x y
    have hstep : fwInnerK i j (k :: ks) s = fwInnerK i j ks
        (if i ≠ k ∧ j ≠ k then fwUpdate s j k (max (s j k) (min (s j i) (s i k))) else s) :=
      rfl
    rw [hstep, ih]
    set s1 := (if i ≠ k ∧ j ≠ k then
        fwUpdate s j k (max (s j k) (min (s j i) (s i k))) else s) with hs1def
    have hs1 : ∀ a b, s1 a b =
        if (i ≠ k ∧ j ≠ k) ∧ a = j ∧ b = k then
          max (s j k) (min (s j i) (s i k))
        else s a b := by
      intro a b
      by_cases hcond : i ≠ k ∧ j ≠ k
      · rw [hs1def, if_pos hcond, fwUpdate_apply]
        by_cases hab : a = j ∧ b = k
        · rw [if_pos hab, if_pos ⟨hcond, hab⟩]
        · rw [if_neg hab, if_neg (fun h => hab h.2)]
      · rw [hs1def, if_neg hcond, if_neg (fun h => hcond h.1)]
    by_cases hx : x = j
    · by_cases hyi : y = i
      · rw [if_neg (fun h => h.2.2.1 hyi), if_neg (fun h => h.2.2.1 hyi), hs1,
          if_neg (fun h => h.1.1 (hyi ▸ h.2.2))]
      · by_cases hyj : y = j
        · rw [if_neg (fun h => h.2.2.2 hyj), if_neg (fun h => h.2.2.2 hyj), hs1,
            if_neg (fun h => h.1.2 (hyj ▸ h.2.2))]
        · by_cases hyk : y = k
          · have hik : i ≠ k := fun h => hyi (hyk.trans h.symm)
            have hjk : j ≠ k := fun h => hyj (hyk.trans h.symm)
            have e1 : s1 x y = max (s j k) (min (s j i) (s i k)) := by
              rw [hs1, if_pos ⟨⟨hik, hjk⟩, hx, hyk⟩]
            have e2 : s1 x i = s x i := by
              rw [hs1, if_neg (fun h => hik h.2.2)]
            have e3 : s1 i y = s i y := by
              rw [hs1, if_neg (fun h => hij h.2.1)]
            have e4 : s x y = s j k := by rw [hx, hyk]
            have e5 : s x i = s j i := by rw [hx]
            have e6 : s i y = s i k := by rw [hyk]
            by_cases hmem : y ∈ ks
            · rw [if_pos ⟨hx, hmem, hyi, hyj⟩,
                if_pos ⟨hx, List.mem_cons.mpr (Or.inl hyk), hyi, hyj⟩, e1, e2, e3, e4, e5, e6]
              omega
            · rw [if_neg (fun h => hmem h.2.1),
                if_pos ⟨hx, List.mem_cons.mpr (Or.inl hyk), hyi, hyj⟩, e1, e4, e5, e6]
          · have e1 : s1 x y = s x y := by
              rw [hs1, if_neg (fun h => hyk h.2.2)]
            have e3 : s1 x i = s x i := by
              rw [hs1, if_neg (fun h => h.1.1 h.2.2)]
            have e4 : s1 i y = s i y := by
              rw [hs1, if_neg (fun h => hij h.2.1)]
            by_cases hmem : y ∈ ks
            · rw [if_pos ⟨hx, hmem, hyi, hyj⟩,
                if_pos ⟨hx, List.mem_cons_of_mem k hmem, hyi, hyj⟩, e1, e3, e4]
            · rw [if_neg (fun h => hmem h.2.1),
                if_neg (fun h => hmem ((List.mem_cons.mp h.2.1).resolve_left hyk)), e1]
    · rw [if_neg (fun h => hx h.1), if_neg (fun h => hx h.1), hs1,
        if_neg (fun h => hx h.2.1)]

theorem fwRowJ_eq (cands : List Int) (i : Int) (js : List Int) :
    ∀ (s : Int → Int → Nat) (x y : Int),
      fwRowJ cands i js s x y =
        if x ∈ js ∧ x ≠ i ∧ y ∈ cands ∧ y ≠ i ∧ y ≠ x then
          max (s x y) (min (s x i) (s i y))
        else s x y := by
  induction js with
  | nil =>
    intro s x y
    simp [fwRowJ]
  | cons j js ih =>
    intro s x y
    have hstep : fwRowJ cands i (j :: js) s =
        fwRowJ cands i js (if i ≠ j then fwInnerK i j cands s else s) := rfl
    rw [hstep, ih]
    set s1 := (if i ≠ j then fwInnerK i j cands s else s) with hs1def
    have hs1 : ∀ a b, s1 a b =
        if i ≠ j ∧ a = j ∧ b ∈ cands ∧ b ≠ i ∧ b ≠ j then
          max (s a b) (min (s a i) (s i b))
        else s a b := by
      intro a b
      by_cases hij : i ≠ j
      · rw [hs1def, if_pos hij, fwInnerK_eq i j hij cands s a b]
        by_cases hc : a = j ∧ b ∈ cands ∧ b ≠ i ∧ b ≠ j
        · rw [if_pos hc, if_pos ⟨hij, hc⟩]
        · rw [if_neg hc, if_neg (fun h => hc h.2)]
      · rw [hs1def, if_neg hij, if_neg (fun h => hij h.1)]
    have f1 : s1 x i = s x i := by
      rw [hs1, if_neg (fun h => h.2.2.2.1 rfl)]
    have f2 : s1 i y = s i y := by
      rw [hs1, if_neg (fun h => h.1 h.2.1)]
    by_cases hxi : x = i
    · rw [if_neg (fun h => h.2.1 hxi), if_neg (fun h => h.2.1 hxi), hs1,
        if_neg (fun h => h.1 (hxi ▸ h.2.1))]
    · by_cases hymem : y ∈ cands
      · by_cases hyi : y = i
        · rw [if_neg (fun h => h.2.2.2.1 hyi), if_neg (fun h => h.2.2.2.1 hyi), hs1,
            if_neg (fun h => h.2.2.2.1 hyi)]
        · by_cases hyx : y = x
          · rw [if_neg (fun h => h.2.2.2.2 hyx), if_neg (fun h => h.2.2.2.2 hyx), hs1,
              if_neg (fun h => h.2.2.2.2 (hyx.trans h.2.1))]
          · by_cases hxj : x = j
            · have hij2 : i ≠ j := fun h => hxi (hxj.trans h.symm)
              have hyj : y ≠ j := fun h => hyx (h.trans hxj.symm)
              have e1 : s1 x y = max (s x y) (min (s x i) (s i y)) := by
                rw [hs1, if_pos ⟨hij2, hxj, hymem, hyi, hyj⟩]
              by_cases hmem : x ∈ js
              · rw [if_pos ⟨hmem, hxi, hymem, hyi, hyx⟩,
                  if_pos ⟨List.mem_cons_of_mem j hmem, hxi, hymem, hyi, hyx⟩, e1, f1, f2]
                omega
              · rw [if_neg (fun h => hmem h.1),
                  if_pos ⟨List.mem_cons.mpr (Or.inl hxj), hxi, hymem, hyi, hyx⟩, e1]
            · have e1 : s1 x y = s x y := by
                rw [hs1, if_neg (fun h => hxj h.2.1)]
              by_cases hmem : x ∈ js
              · rw [if_pos ⟨hmem, hxi, hymem, hyi, hyx⟩,
                  if_pos ⟨List.mem_cons_of_mem j hmem, hxi, hymem, hyi, hyx⟩, e1, f1, f2]
              · rw [if_neg (fun h => hmem h.1),
                  if_neg (fun h => hmem ((List.mem_cons.mp h.1).resolve_left hxj)), e1]
      · rw [if_neg (fun h => hymem h.2.2.1), if_neg (fun h => hymem h.2.2.1), hs1,
          if_neg (fun h => hymem h.2.2.1)]

theorem fwPhase_eq (cands : List Int) (i : Int) (s : Int → Int → Nat) :
    fwPhase cands i s = purePhase cands i s := by
  funext x y
  rw [fwPhase, fwRowJ_eq, purePhase]

theorem schulzeFW_foldl_eq (cands : List Int) :
    ∀ (is : List Int) (s : Int → Int → Nat),
      is.foldl (fun s i => fwPhase cands i s) s = purePass cands is s := by
  intro is
  induction is with
  | nil => intro s; rfl
  | cons i is ih =>
    intro s
    show is.foldl (fun s i => fwPhase cands i s) (fwPhase cands i s) = _
    rw [ih, fwPhase_eq]
    rfl

/-- The in-place triple-nested pass of the source equals the pure,
simultaneous relaxation phases applied in the same intermediate order. -/
theorem schulzeFW_eq (cands : List Int) (s : Int → Int → Nat) :
    schulzeFW cands s = purePass cands cands s :=
  schulzeFW_foldl_eq cands cands s

/-! ## Pure theory of the relaxation phases -/

theorem purePhase_apply (cands : List Int) (i : Int) (s : Int → Int → Nat) (x y : Int) :
    purePhase cands i s x y =
      if x ∈ cands ∧ x ≠ i ∧ y ∈ cands ∧ y ≠ i ∧ y ≠ x then
        max (s x y) (min (s x i) (s i y))
      else s x y := rfl

/-- A phase never decreases an entry. -/
theorem purePhase_le (cands : List Int) (i : Int) (s : Int → Int → Nat) (x y : Int) :
    s x y ≤ purePhase cands i s x y := by
  rw [purePhase_apply]
  split_ifs with h
  · exact le_max_left _ _
  · exact le_rfl

/-- The pass never decreases an entry. -/
theorem purePass_le (cands : List Int) :
    ∀ (is : List Int) (s : Int → Int → Nat) (x y : Int),
      s x y ≤ purePass cands is s x y := by
  intro is
  induction is with
  | nil => intro s x y; exact le_rfl
  | cons i is ih =>
    intro s x y
    exact le_trans (purePhase_le cands i s x y) (ih (purePhase cands i s) x y)

/-- Entries outside the candidate square are never touched by the pass. -/
theorem purePass_outside (cands : List Int) :
    ∀ (is : List Int) (s : Int → Int → Nat) (x y : Int),
      ¬(x ∈ cands ∧ y ∈ cands) → purePass cands is s x y = s x y := by
  intro is
  induction is with
  | nil => intro s x y _; rfl
  | cons i is ih =>
    intro s x y h
    show purePass cands is (purePhase cands i s) x y = s x y
    rw [ih _ x y h, purePhase_apply, if_neg (fun hc => h ⟨hc.1, hc.2.2.1⟩)]

/-- A phase keeps every entry below any matrix that dominates `s` and is
relaxed on the candidate square. -/
theorem purePhase_le_of_closed (cands : List Int) (i : Int) (hi : i ∈ cands)
    (s D : Int → Int → Nat) (hsD : ∀ x y, s x y ≤ D x y)
    (hD : ∀ a ∈ cands, Closed cands a D) (x y : Int) :
    purePhase cands i s x y ≤ D x y := by
  rw [purePhase_apply]
  split_ifs with h
  · rcases h with ⟨hx, hxi, hy, hyi, hyx⟩
    have h1 : min (D x i) (D i y) ≤ D x y :=
      hD i hi x hx y hy (fun hc => hyx hc.symm) hxi (fun hc => hyi hc)
    have h2 : s x y ≤ D x y := hsD x y
    have h3 : s x i ≤ D x i := hsD x i
    have h4 : s i y ≤ D i y := hsD i y
    omega
  · exact hsD x y

/-- The pass keeps every entry below any relaxed dominating matrix. -/
theorem purePass_le_of_closed (cands : List Int) :
    ∀ (is : List Int), (∀ a ∈ is, a ∈ cands) →
      ∀ (s D : Int → Int → Nat), (∀ x y, s x y ≤ D x y) →
        (∀ a ∈ cands, Closed cands a D) →
        ∀ x y, purePass cands is s x y ≤ D x y := by
  intro is
  induction is with
  | nil => intro _ s D hsD _ x y; exact hsD x y
  | cons i is ih =>
    intro hsub s D hsD hD x y
    exact ih (fun a ha => hsub a (List.mem_cons_of_mem i ha)) (purePhase cands i s) D
      (purePhase_le_of_closed cands i (hsub i (List.mem_cons_self i is)) s D hsD hD) hD x y

/-- Right after its own phase, the matrix is relaxed for intermediate `i`
(the phase writes neither row `i` nor column `i`). -/
theorem purePhase_closed_self (cands : List Int) (i : Int) (s : Int → Int → Nat) :
    Closed cands i (purePhase cands i s) := by
  intro x hx y hy hxy hxi hyi
  have e1 : purePhase cands i s x i = s x i := by
    rw [purePhase_apply, if_neg (fun h => h.2.2.2.1 rfl)]
  have e2 : purePhase cands i s i y = s i y := by
    rw [purePhase_apply, if_neg (fun h => h.2.1 rfl)]
  have e3 : purePhase cands i s x y = max (s x y) (min (s x i) (s i y)) := by
    rw [purePhase_apply, if_pos ⟨hx, hxi, hy, hyi, fun h => hxy h.symm⟩]
  rw [e1, e2, e3]
  omega

/-- A later phase (any intermediate `a` in the candidate set) preserves
relaxedness for `i`.  This is the distributive-lattice core of the
Floyd-Warshall argument for max-min path strengths. -/
theorem purePhase_preserves_closed (cands : List Int) (i a : Int) (ha : a ∈ cands)
    (s : Int → Int → Nat) (h : Closed cands i s) :
    Closed cands i (purePhase cands a s) := by
  intro x hx y hy hxy hxi hyi
  have h1 : min (s x i) (s i y) ≤ s x y := h x hx y hy hxy hxi hyi
  by_cases hai : a = i
  · have e1 : purePhase cands a s x i = s x i := by
      rw [purePhase_apply, if_neg (fun hc => hc.2.2.2.1 (hai ▸ rfl))]
    have e2 : purePhase cands a s i y = s i y := by
      rw [purePhase_apply, if_neg (fun hc => hc.2.1 hai.symm)]
    have e3 : s x y ≤ purePhase cands a s x y := purePhase_le cands a s x y
    rw [e1, e2]
    omega
  · by_cases hax : a = x
    · have e1 : purePhase cands a s x i = s x i := by
        rw [purePhase_apply, if_neg (fun hc => hc.2.1 hax.symm)]
      have e2 : purePhase cands a s x y = s x y := by
        rw [purePhase_apply, if_neg (fun hc => hc.2.1 hax.symm)]
      have e3 : purePhase cands a s i y ≤ max (s i y) (min (s i x) (s x y)) := by
        rw [purePhase_apply]
        split_ifs with hc
        · rw [hax]
        · exact le_max_left _ _
      have h2 : min (s x i) (s i x) ≤ s x i := min_le_left _ _
      rw [e1, e2]
      omega
    · by_cases hay : a = y
      · have e1 : purePhase cands a s i y = s i y := by
          rw [purePhase_apply, if_neg (fun hc => hc.2.2.2.1 hay.symm)]
        have e2 : purePhase cands a s x y = s x y := by
          rw [purePhase_apply, if_neg (fun hc => hc.2.2.2.1 hay.symm)]
        have e3 : purePhase cands a s x i ≤ max (s x i) (min (s x y) (s y i)) := by
          rw [purePhase_apply]
          split_ifs with hc
          · rw [hay]
          · exact le_max_left _ _
        rw [e1, e2]
        omega
      · have h2 : min (s x i) (s i a) ≤ s x a :=
          h x hx a ha (fun hc => hax hc.symm) hxi (fun hc => hai hc)
        have h3 : min (s a i) (s i y) ≤ s a y :=
          h a ha y hy hay (fun hc => hai hc) hyi
        have e1 : purePhase cands a s x i ≤ max (s x i) (min (s x a) (s a i)) := by
          rw [purePhase_apply]
          split_ifs with hc
          · exact le_rfl
          · exact le_max_left _ _
        have e2 : purePhase cands a s i y ≤ max (s i y) (min (s i a) (s a y)) := by
          rw [purePhase_apply]
          split_ifs with hc
          · exact le_rfl
          · exact le_max_left _ _
        have e3 : max (s x y) (min (s x a) (s a y)) ≤ purePhase cands a s x y := by
          rw [purePhase_apply]
          split_ifs with hc
          · exact le_rfl
          · push_neg at hc
            have hxa : x ≠ a := fun h0 => hax h0.symm
            have hya : y ≠ a := fun h0 => hay h0.symm
            exact absurd (hc hx hxa hy hya) (fun h0 => hxy h0.symm)
        omega

/-- Relaxedness for `i` survives a whole tail of phases with
intermediates in the candidate set. -/
theorem purePass_preserves_closed (cands : List Int) (i : Int) :
    ∀ (is : List Int), (∀ a ∈ is, a ∈ cands) →
      ∀ s : Int → Int → Nat, Closed cands i s → Closed cands i (purePass cands is s) := by
  intro is
  induction is with
  | nil => intro _ s h; exact h
  | cons a is ih =>
    intro hsub s h
    exact ih (fun b hb => hsub b (List.mem_cons_of_mem a hb)) (purePhase cands a s)
      (purePhase_preserves_closed cands i a (hsub a (List.mem_cons_self a is)) s h)

/-- After the pass has processed every intermediate in `is`, the matrix
is relaxed for each of them. -/
theorem purePass_closed_all (cands : List Int) :
    ∀ (is : List Int), (∀ a ∈ is, a ∈ cands) →
      ∀ (s : Int → Int → Nat) (i : Int), i ∈ is → Closed cands i (purePass cands is s) := by
  intro is
  induction is with
  | nil => intro _ s i hi; exact absurd hi (List.not_mem_nil i)
  | cons a is ih =>
    intro hsub s i hi
    have hsub2 : ∀ b ∈ is, b ∈ cands := fun b hb => hsub b (List.mem_cons_of_mem a hb)
    rcases List.mem_cons.mp hi with hia | hia
    · subst hia
      exact purePass_preserves_closed cands i is hsub2 (purePhase cands i s)
        (purePhase_closed_self cands i s)
    · exact ih hsub2 (purePhase cands a s) i hia

/-- A phase whose triples are already relaxed changes nothing. -/
theorem purePhase_id_of_closed (cands : List Int) (i : Int) (s : Int → Int → Nat)
    (h : Closed cands i s) : purePhase cands i s = s := by
  funext x y
  rw [purePhase_apply]
  split_ifs with hc
  · rcases hc with ⟨hx, hxi, hy, hyi, hyx⟩
    have := h x hx y hy (fun h0 => hyx h0.symm) hxi hyi
    omega
  · rfl

/-- A whole pass over a matrix already relaxed for every candidate
changes nothing. -/
theorem purePass_id_of_closed (cands : List Int) :
    ∀ (is : List Int), (∀ a ∈ is, a ∈ cands) →
      ∀ s : Int → Int → Nat, (∀ i ∈ cands, Closed cands i s) →
        purePass cands is s = s := by
  intro is
  induction is with
  | nil => intro _ s _; rfl
  | cons a is ih =>
    intro hsub s h
    show purePass cands is (purePhase cands a s) = s
    rw [purePhase_id_of_closed cands a s (h a (hsub a (List.mem_cons_self a is)))]
    exact ih (fun b hb => hsub b (List.mem_cons_of_mem a hb)) s h

/-! ## Chain semantics: the pass computes max-min strongest paths -/

theorem chainStrength_append (g : Int → Int → Nat) (i y : Int) :
    ∀ (l1 : List Int) (x : Int) (l2 : List Int),
      chainStrength g x (l1 ++ i :: l2) y =
        min (chainStrength g x l1 i) (chainStrength g i l2 y) := by
  intro l1
  induction l1 with
  | nil => intro x l2; rfl
  | cons m l1 ih =>
    intro x l2
    show min (g x m) (chainStrength g m (l1 ++ i :: l2) y) = _
    rw [ih m l2, chainStrength]
    exact (min_assoc _ _ _).symm

/-- Every entry of the original matrix is trivially a chain strength. -/
theorem reach_self (g : Int → Int → Nat) (S : List Int) (x y : Int) :
    Reach g S x y (g x y) :=
  ⟨[], fun m hm => absurd hm (List.not_mem_nil m), rfl⟩

/-- A phase keeps every entry chain-achievable. -/
theorem purePhase_reach (cands : List Int) (g : Int → Int → Nat) (S : List Int)
    (i : Int) (hi : i ∈ S) (s : Int → Int → Nat)
    (h : ∀ x y, Reach g S x y (s x y)) (x y : Int) :
    Reach g S x y (purePhase cands i s x y) := by
  rw [purePhase_apply]
  split_ifs with hc
  · rcases h x y with ⟨l0, hl0, e0⟩
    rcases h x i with ⟨l1, hl1, e1⟩
    rcases h i y with ⟨l2, hl2, e2⟩
    by_cases hle : min (s x i) (s i y) ≤ s x y
    · rw [max_eq_left hle]
      exact ⟨l0, hl0, e0⟩
    · rw [max_eq_right (le_of_not_le hle)]
      refine ⟨l1 ++ i :: l2, ?_, ?_⟩
      · intro m hm
        rcases List.mem_append.mp hm with hm | hm
        · exact hl1 m hm
        · rcases List.mem_cons.mp hm with hm | hm
          · exact hm ▸ hi
          · exact hl2 m hm
      · rw [chainStrength_append, ← e1, ← e2]
  · exact h x y

/-- The pass keeps every entry chain-achievable. -/
theorem purePass_reach (cands : List Int) (g : Int → Int → Nat) (S : List Int) :
    ∀ (is : List Int), (∀ a ∈ is, a ∈ S) →
      ∀ s : Int → Int → Nat, (∀ x y, Reach g S x y (s x y)) →
        ∀ x y, Reach g S x y (purePass cands is s x y) := by
  intro is
  induction is with
  | nil => intro _ s h x y; exact h x y
  | cons a is ih =>
    intro hsub s h x y
    exact ih (fun b hb => hsub b (List.mem_cons_of_mem a hb)) (purePhase cands a s)
      (purePhase_reach cands g S a (hsub a (List.mem_cons_self a is)) s h) x y

/-- Against a dominating matrix that is relaxed for every candidate, no
chain with in-universe intermediates beats the matrix entry. -/
theorem chainStrength_le_closed (cands : List Int) (g s : Int → Int → Nat)
    (hges : ∀ x y, g x y ≤ s x y) (hdiag : ∀ x, g x x = 0)
    (hcl : ∀ i ∈ cands, Closed cands i s) :
    ∀ (l : List Int), (∀ m ∈ l, m ∈ cands) →
      ∀ x, x ∈ cands → ∀ y, y ∈ cands → x ≠ y →
        chainStrength g x l y ≤ s x y := by
  intro l
  induction l with
  | nil => intro _ x _ y _ _; exact hges x y
  | cons m l ih =>
    intro hsub x hx y hy hxy
    have hm : m ∈ cands := hsub m (List.mem_cons_self m l)
    show min (g x m) (chainStrength g m l y) ≤ s x y
    by_cases hmx : m = x
    · rw [hmx, hdiag x]
      omega
    · by_cases hmy : m = y
      · have : g x m ≤ s x y := hmy ▸ hges x y
        omega
      · have h1 : chainStrength g m l y ≤ s m y :=
          ih (fun b hb => hsub b (List.mem_cons_of_mem m hb)) m hm y hy hmy
        have h2 : min (s x m) (s m y) ≤ s x y :=
          hcl m hm x hx y hy hxy (fun hc => hmx hc.symm) (fun hc => hmy hc.symm)
        have h3 : g x m ≤ s x m := hges x m
        omega

/-! ## Claim C1 -/

theorem strength0_diag (cands : List Int) (p : PFun) (x : Int) :
    strength0 cands p x x = 0 := by
  rw [strength0, if_neg (fun h => h.2.2.1 rfl)]

/-- C1.  For every set of ranked ballots (with `p` the pairwise matrix
`schulze_winner` builds from them), the strength matrix produced by the
single triple-nested in-place pass (i) dominates the initial
strict-majority matrix, (ii) is a fixed point of the pass — running the
full pass again changes no entry, so further relaxation passes improve
nothing, (iii) is the least matrix above the initial one that is relaxed
for every triple of distinct candidates, and (iv) on every ordered pair
of distinct candidates equals the max-min strongest-path closure: it is
attained by a chain through the candidate universe and dominates every
such chain. -/
theorem c1_single_pass_is_closure (ballots : List RankedBallot) (p : PFun)
    (_hp : schulzePairwise ballots = some p) :
    (∀ x y, strength0 (schulzeCandidates ballots) p x y ≤ strengthStar ballots p x y) ∧
    schulzeFW (schulzeCandidates ballots) (strengthStar ballots p) = strengthStar ballots p ∧
    (∀ D : Int → Int → Nat,
      (∀ x y, strength0 (schulzeCandidates ballots) p x y ≤ D x y) →
      (∀ i ∈ schulzeCandidates ballots, ∀ x ∈ schulzeCandidates ballots,
        ∀ y ∈ schulzeCandidates ballots, x ≠ y → x ≠ i → y ≠ i →
          min (D x i) (D i y) ≤ D x y) →
      ∀ x y, strengthStar ballots p x y ≤ D x y) ∧
    (∀ x ∈ schulzeCandidates ballots, ∀ y ∈ schulzeCandidates ballots, x ≠ y →
      Reach (strength0 (schulzeCandidates ballots) p) (schulzeCandidates ballots) x y
        (strengthStar ballots p x y) ∧
      (∀ l, (∀ m ∈ l, m ∈ schulzeCandidates ballots) →
        chainStrength (strength0 (schulzeCandidates ballots) p) x l y ≤
          strengthStar ballots p x y)) := by
  set cands := schulzeCandidates ballots with hcands
  set s0 := strength0 cands p with hs0
  have hstar : strengthStar ballots p = purePass cands cands s0 :=
    schulzeFW_eq cands s0
  have hsub : ∀ a ∈ cands, a ∈ cands := fun a ha => ha
  have hcl : ∀ i ∈ cands, Closed cands i (purePass cands cands s0) :=
    fun i hi => purePass_closed_all cands cands hsub s0 i hi
  have hge : ∀ x y, s0 x y ≤ purePass cands cands s0 x y :=
    purePass_le cands cands s0
  refine ⟨?_, ?_, ?_, ?_⟩
  · intro x y
    rw [hstar]
    exact hge x y
  · rw [hstar, schulzeFW_eq]
    exact purePass_id_of_closed cands cands hsub _ hcl
  · intro D hD0 hDclosed x y
    rw [hstar]
    exact purePass_le_of_closed cands cands hsub s0 D hD0
      (fun a ha x0 hx0 y0 hy0 => hDclosed a ha x0 hx0 y0 hy0) x y
  · intro x hx y hy hxy
    constructor
    · rw [hstar]
      exact purePass_reach cands s0 cands cands hsub s0
        (fun a b => reach_self s0 cands a b) x y
    · intro l hl
      rw [hstar]
      exact chainStrength_le_closed cands s0 (purePass cands cands s0) hge
        (fun a => strength0_diag cands p a) hcl l hl x hx y hy hxy

/-- Concrete instantiation of C1 at the perfect-cycle ballots: the pass
output is a fixed point of a further pass. -/
theorem c1_witness :
    schulzeFW (schulzeCandidates cycleBallots) (strengthStar cycleBallots cyclePairwise)
      = strengthStar cycleBallots cyclePairwise :=
  (c1_single_pass_is_closure cycleBallots cyclePairwise rfl).2.1

/-! ## Claim C2 -/

/-- Inverting a successful run of the route: the audit trail is the
pairwise matrix and the winner list is the filter over the candidate
universe by the strength comparison. -/
theorem schulze_winner_ok_inv (ballots : List RankedBallot) (w : List Int) (p : PFun)
    (h : schulze_winner ballots = .ok w p) :
    schulzePairwise ballots = some p ∧
    w = (schulzeCandidates ballots).filter (fun c =>
      (schulzeCandidates ballots).all (fun d =>
        if d ≠ c then
          decide (strengthStar ballots p d c ≤ strengthStar ballots p c d)
        else true)) := by
  unfold schulze_winner at h
  by_cases hb : ballots.isEmpty
  · rw [if_pos hb] at h
    exact absurd h (fun hc => SResult.noConfusion hc)
  · rw [if_neg hb] at h
    cases hq : schulzePairwise ballots with
    | none =>
      rw [hq] at h
      exact absurd h (fun hc => SResult.noConfusion hc)
    | some q =>
      rw [hq] at h
      simp only [SResult.ok.injEq] at h
      rcases h with ⟨h1, h2⟩
      subst h2
      exact ⟨rfl, h1.symm⟩

/-- C2.  Whenever `schulze_winner` returns a payload, the winner list
holds exactly the candidates `c` of the universe with
`strength[c][d] ≥ strength[d][c]` against every other candidate `d`;
on the perfect-cycle ballots the audit trail is
`A>B=2, B>A=1, B>C=2, C>B=1, C>A=2, A>C=1` and all three candidates are
co-winners, and on the `A`-always-first ballots `A` is the sole
winner. -/
theorem c2_winner_rule :
    (∀ (ballots : List RankedBallot) (w : List Int) (p : PFun),
      schulze_winner ballots = .ok w p →
      ∀ c : Int, c ∈ w ↔ (c ∈ schulzeCandidates ballots ∧
        ∀ d ∈ schulzeCandidates ballots, d ≠ c →
          strengthStar ballots p d c ≤ strengthStar ballots p c d)) ∧
    schulzeWinnersOf cycleBallots = some [3, 1, 2] ∧
    List.Perm [3, 1, 2] [1, 2, 3] ∧
    schulzeAuditOf cycleBallots 1 2 = some 2 ∧
    schulzeAuditOf cycleBallots 2 1 = some 1 ∧
    schulzeAuditOf cycleBallots 2 3 = some 2 ∧
    schulzeAuditOf cycleBallots 3 2 = some 1 ∧
    schulzeAuditOf cycleBallots 3 1 = some 2 ∧
    schulzeAuditOf cycleBallots 1 3 = some 1 ∧
    schulzeWinnersOf aFirstBallots = some [1] := by
  refine ⟨?_, by decide, by decide, by decide, by decide, by decide, by decide,
    by decide, by decide, by decide⟩
  intro ballots w p h c
  obtain ⟨_, hw⟩ := schulze_winner_ok_inv ballots w p h
  rw [hw, List.mem_filter, List.all_eq_true]
  constructor
  · rintro ⟨h1, h2⟩
    refine ⟨h1, fun d hd hdc => ?_⟩
    have h3 := h2 d hd
    rw [if_pos hdc] at h3
    exact of_decide_eq_true h3
  · rintro ⟨h1, h2⟩
    refine ⟨h1, fun d hd => ?_⟩
    by_cases hdc : d ≠ c
    · rw [if_pos hdc]
      exact decide_eq_true (h2 d hd hdc)
    · rw [if_neg hdc]

/-- Concrete instantiation of C2's winner rule at the cycle ballots. -/
theorem c2_witness :
    (2 : Int) ∈ ([3, 1, 2] : List Int) ↔
      ((2 : Int) ∈ schulzeCandidates cycleBallots ∧
        ∀ d ∈ schulzeCandidates cycleBallots, d ≠ 2 →
          strengthStar cycleBallots cyclePairwise d 2 ≤
            strengthStar cycleBallots cyclePairwise 2 d) :=
  (c2_winner_rule.1 cycleBallots [3, 1, 2] cyclePairwise rfl) 2

/-! ## Claim C3 -/

theorem initPairwise_dom (cands : List Int) : PairDom cands (initPairwise cands) := by
  intro c d
  rw [initPairwise]
  split_ifs with h
  · simp [h]
  · simp [h]

theorem updateP_dom (cands : List Int) (p : PFun) (c d : Int) (v : Nat)
    (h : PairDom cands p) (hc : c ∈ cands) (hd : d ∈ cands) (hcd : c ≠ d) :
    PairDom cands (updateP p c d v) := by
  intro x y
  rw [updateP]
  split_ifs with hxy
  · constructor
    · intro _
      exact ⟨hxy.1.symm ▸ hc, hxy.2.symm ▸ hd,
        fun h0 => hcd (hxy.1.symm.trans (h0.trans hxy.2))⟩
    · intro _
      rfl
  · exact h x y

theorem ballotPairs_mem :
    ∀ (r : List Int) (c d : Int), (c, d) ∈ ballotPairs r → c ∈ r ∧ d ∈ r := by
  intro r
  induction r with
  | nil => intro c d h; exact absurd h (List.not_mem_nil _)
  | cons a rest ih =>
    intro c d h
    rw [ballotPairs] at h
    rcases List.mem_append.mp h with h | h
    · rcases List.mem_map.mp h with ⟨d0, hd0, he⟩
      have h1 : a = c := congrArg Prod.fst he
      have h2 : d0 = d := congrArg Prod.snd he
      exact ⟨h1 ▸ List.mem_cons_self a rest, h2 ▸ List.mem_cons_of_mem a hd0⟩
    · rcases ih c d h with ⟨h1, h2⟩
      exact ⟨List.mem_cons_of_mem a h1, List.mem_cons_of_mem a h2⟩

theorem ballotPairs_ne :
    ∀ (r : List Int), r.Nodup → ∀ c d : Int, (c, d) ∈ ballotPairs r → c ≠ d := by
  intro r
  induction r with
  | nil => intro _ c d h; exact absurd h (List.not_mem_nil _)
  | cons a rest ih =>
    intro hnd c d h
    rcases List.nodup_cons.mp hnd with ⟨ha, hrest⟩
    rw [ballotPairs] at h
    rcases List.mem_append.mp h with h | h
    · rcases List.mem_map.mp h with ⟨d0, hd0, he⟩
      have h1 : a = c := congrArg Prod.fst he
      have h2 : d0 = d := congrArg Prod.snd he
      intro hcd
      exact ha ((h2.trans (hcd.symm.trans h1.symm)) ▸ hd0)
    · exact ih hrest c d h

theorem countPairs_some (cands : List Int) :
    ∀ (pairs : List (Int × Int)) (p : PFun), PairDom cands p →
      (∀ cd ∈ pairs, cd.1 ∈ cands ∧ cd.2 ∈ cands ∧ cd.1 ≠ cd.2) →
      ∃ q, countPairs p pairs = some q ∧ PairDom cands q := by
  intro pairs
  induction pairs with
  | nil => intro p hp _; exact ⟨p, rfl, hp⟩
  | cons cd rest ih =>
    intro p hp hgood
    have h1 := hgood cd (List.mem_cons_self cd rest)
    have h2 : (p cd.1 cd.2).isSome := (hp cd.1 cd.2).mpr h1
    rcases Option.isSome_iff_exists.mp h2 with ⟨v, hv⟩
    have hstep : countPairs p (cd :: rest) =
        countPairs (updateP p cd.1 cd.2 (v + 1)) rest := by
      show (match p cd.1 cd.2 with
            | none => none
            | some v => countPairs (updateP p cd.1 cd.2 (v + 1)) rest) = _
      rw [hv]
    rw [hstep]
    exact ih (updateP p cd.1 cd.2 (v + 1))
      (updateP_dom cands p cd.1 cd.2 (v + 1) hp h1.1 h1.2.1 h1.2.2)
      (fun cd0 h0 => hgood cd0 (List.mem_cons_of_mem cd h0))

theorem countBallots_some (cands : List Int) :
    ∀ (ballots : List RankedBallot) (p : PFun), PairDom cands p →
      (∀ b ∈ ballots, ∀ cd ∈ ballotPairs b.ranking,
        cd.1 ∈ cands ∧ cd.2 ∈ cands ∧ cd.1 ≠ cd.2) →
      ∃ q, countBallots p ballots = some q ∧ PairDom cands q := by
  intro ballots
  induction ballots with
  | nil => intro p hp _; exact ⟨p, rfl, hp⟩
  | cons b rest ih =>
    intro p hp hgood
    rcases countPairs_some cands (ballotPairs b.ranking) p hp
        (hgood b (List.mem_cons_self b rest)) with ⟨q, hq, hqdom⟩
    have hstep : countBallots p (b :: rest) = countBallots q rest := by
      show (match countPairs p (ballotPairs b.ranking) with
            | none => none
            | some q => countBallots q rest) = _
      rw [hq]
    rw [hstep]
    exact ih q hqdom (fun b0 h0 => hgood b0 (List.mem_cons_of_mem b h0))

theorem mem_schulzeCandidates (ballots : List RankedBallot) (b : RankedBallot)
    (hb : b ∈ ballots) (x : Int) (hx : x ∈ b.ranking) :
    x ∈ schulzeCandidates ballots := by
  rw [schulzeCandidates, List.mem_dedup, List.mem_flatten]
  exact ⟨b.ranking, List.mem_map.mpr ⟨b, hb, rfl⟩, hx⟩

/-- Counterexample to C3 as stated: the single stored ballot with
ranking `[5, 5]` (accepted by `submit_ranked_ballot`) makes the
non-empty-ballot-set run of `schulze_winner` raise an uncaught
`KeyError` in the preference-counting loop instead of returning. -/
theorem c3_counterexample :
    schulze_winner dupBallot = SResult.crash ∧ dupBallot ≠ [] :=
  ⟨rfl, by decide⟩

/-- C3, amended: the internal Schulze computation is total and returns a
payload for every non-empty stored ballot set whose rankings repeat no
candidate id (empty rankings included); a repeated id instead crashes
the pairwise-count loop with a `KeyError`. -/
theorem c3_internal_totality (ballots : List RankedBallot)
    (hne : ballots ≠ [])
    (hnd : ∀ b ∈ ballots, b.ranking.Nodup) :
    ∃ w p, schulze_winner ballots = SResult.ok w p := by
  have hgood : ∀ b ∈ ballots, ∀ cd ∈ ballotPairs b.ranking,
      cd.1 ∈ schulzeCandidates ballots ∧ cd.2 ∈ schulzeCandidates ballots ∧
        cd.1 ≠ cd.2 := by
    intro b hb cd hcd
    rcases ballotPairs_mem b.ranking cd.1 cd.2 hcd with ⟨h1, h2⟩
    exact ⟨mem_schulzeCandidates ballots b hb cd.1 h1,
      mem_schulzeCandidates ballots b hb cd.2 h2,
      ballotPairs_ne b.ranking (hnd b hb) cd.1 cd.2 hcd⟩
  rcases countBallots_some (schulzeCandidates ballots) ballots
      (initPairwise (schulzeCandidates ballots))
      (initPairwise_dom (schulzeCandidates ballots)) hgood with ⟨q, hq, _⟩
  have hq2 : schulzePairwise ballots = some q := hq
  rw [schulze_winner, if_neg (fun h => hne (List.isEmpty_iff.mp h)), hq2]
  exact ⟨_, q, rfl⟩

/-- Concrete instantiation of the amended C3 at a ballot set containing
an empty ranking. -/
theorem c3_witness :
    ∃ w p, schulze_winner emptyPlusBallots = SResult.ok w p :=
  c3_internal_totality emptyPlusBallots (by decide) (by decide)

/-! ## Claim C4 -/

theorem lookupA_setA_self {α : Type} (k : Int) (v : α) :
    ∀ l : List (Int × α), lookupA (setA l k v) k = some v := by
  intro l
  induction l with
  | nil =>
    rw [setA]
    simp [lookupA]
  | cons e l ih =>
    rw [setA]
    by_cases he : e.1 = k
    · rw [if_pos (by rw [List.find?_cons_of_pos _ (by simp [he])]; rfl)]
      rw [List.map_cons, if_pos he]
      simp [lookupA]
    · by_cases h2 : (l.find? (fun x => decide (x.1 = k))).isSome
      · rw [if_pos (by rw [List.find?_cons_of_neg _ (by simp [he])]; exact h2)]
        rw [List.map_cons, if_neg he]
        have hhead : lookupA (e :: l.map (fun x => if x.1 = k then (k, v) else x)) k =
            lookupA (l.map (fun x => if x.1 = k then (k, v) else x)) k := by
          rw [lookupA, lookupA, List.find?_cons_of_neg _ (by simp [he])]
        rw [hhead]
        have hsetl : setA l k v = l.map (fun x => if x.1 = k then (k, v) else x) := by
          rw [setA, if_pos h2]
        rw [← hsetl]
        exact ih
      · rw [if_neg (fun hc => h2 (by rwa [List.find?_cons_of_neg _ (by simp [he])] at hc))]
        rw [List.cons_append]
        have hhead : lookupA (e :: (l ++ [(k, v)])) k = lookupA (l ++ [(k, v)]) k := by
          rw [lookupA, lookupA, List.find?_cons_of_neg _ (by simp [he])]
        rw [hhead]
        have hsetl : setA l k v = l ++ [(k, v)] := by
          rw [setA, if_neg h2]
        rw [← hsetl]
        exact ih

/-- Rewriting the value at a key absent from `l` leaves every lookup in
`l` unchanged. -/
theorem lookupA_map_set_of_absent {α : Type} (k c : Int) (v : α) :
    ∀ l : List (Int × α), ¬(l.find? (fun x => decide (x.1 = k))).isSome →
      lookupA (l.map (fun x => if x.1 = k then (k, v) else x)) c = lookupA l c := by
  intro l
  induction l with
  | nil => intro _; rfl
  | cons f l ihl =>
    intro h3
    have hf : ¬ f.1 = k := fun hc =>
      h3 (by rw [List.find?_cons_of_pos _ (by simp [hc])]; rfl)
    have h5 : ¬(l.find? (fun x => decide (x.1 = k))).isSome := fun hc =>
      h3 (by rw [List.find?_cons_of_neg _ (by simp [hf])]; exact hc)
    rw [List.map_cons, if_neg hf]
    by_cases hfc : f.1 = c
    · rw [lookupA, lookupA, List.find?_cons_of_pos _ (by simp [hfc]),
        List.find?_cons_of_pos _ (by simp [hfc])]
    · rw [lookupA, lookupA, List.find?_cons_of_neg _ (by simp [hfc]),
        List.find?_cons_of_neg _ (by simp [hfc])]
      rw [lookupA, lookupA] at ihl
      exact ihl h5

theorem lookupA_setA_ne {α : Type} (k c : Int) (hck : c ≠ k) (v : α) :
    ∀ l : List (Int × α), lookupA (setA l k v) c = lookupA l c := by
  have hkc : ¬ k = c := fun h => hck h.symm
  intro l
  induction l with
  | nil =>
    rw [setA]
    simp [lookupA, hkc]
  | cons e l ih =>
    rw [setA]
    by_cases h2 : ((e :: l).find? (fun x => decide (x.1 = k))).isSome
    · rw [if_pos h2, List.map_cons]
      by_cases he : e.1 = k
      · have hec : ¬ e.1 = c := fun h => hkc (he ▸ h)
        rw [if_pos he]
        have hh1 : lookupA ((k, v) :: l.map (fun x => if x.1 = k then (k, v) else x)) c =
            lookupA (l.map (fun x => if x.1 = k then (k, v) else x)) c := by
          rw [lookupA, lookupA, List.find?_cons_of_neg _ (by simp [hkc])]
        have hh2 : lookupA (e :: l) c = lookupA l c := by
          rw [lookupA, lookupA, List.find?_cons_of_neg _ (by simp [hec])]
        rw [hh1, hh2]
        by_cases h3 : (l.find? (fun x => decide (x.1 = k))).isSome
        · have hsetl : setA l k v = l.map (fun x => if x.1 = k then (k, v) else x) := by
            rw [setA, if_pos h3]
          rw [hsetl] at ih
          exact ih
        · exact lookupA_map_set_of_absent k c v l h3
      · rw [if_neg he]
        have h3 : (l.find? (fun x => decide (x.1 = k))).isSome := by
          rwa [List.find?_cons_of_neg _ (by simp [he])] at h2
        have hsetl : setA l k v = l.map (fun x => if x.1 = k then (k, v) else x) := by
          rw [setA, if_pos h3]
        rw [hsetl] at ih
        by_cases hec : e.1 = c
        · have hh1 : lookupA (e :: l.map (fun x => if x.1 = k then (k, v) else x)) c =
              some e.2 := by
            rw [lookupA, List.find?_cons_of_pos _ (by simp [hec])]
            rfl
          have hh2 : lookupA (e :: l) c = some e.2 := by
            rw [lookupA, List.find?_cons_of_pos _ (by simp [hec])]
            rfl
          rw [hh1, hh2]
        · have hh1 : lookupA (e :: l.map (fun x => if x.1 = k then (k, v) else x)) c =
              lookupA (l.map (fun x => if x.1 = k then (k, v) else x)) c := by
            rw [lookupA, lookupA, List.find?_cons_of_neg _ (by simp [hec])]
          have hh2 : lookupA (e :: l) c = lookupA l c := by
            rw [lookupA, lookupA, List.find?_cons_of_neg _ (by simp [hec])]
          rw [hh1, hh2]
          exact ih
    · rw [if_neg h2, List.cons_append]
      have he : ¬ e.1 = k := fun hc =>
        h2 (by rw [List.find?_cons_of_pos _ (by simp [hc])]; rfl)
      have h3 : ¬(l.find? (fun x => decide (x.1 = k))).isSome := fun hc =>
        h2 (by rw [List.find?_cons_of_neg _ (by simp [he])]; exact hc)
      have hsetl : setA l k v = l ++ [(k, v)] := by rw [setA, if_neg h3]
      rw [hsetl] at ih
      by_cases hec : e.1 = c
      · have hh1 : lookupA (e :: (l ++ [(k, v)])) c = some e.2 := by
          rw [lookupA, List.find?_cons_of_pos _ (by simp [hec])]
          rfl
        have hh2 : lookupA (e :: l) c = some e.2 := by
          rw [lookupA, List.find?_cons_of_pos _ (by simp [hec])]
          rfl
        rw [hh1, hh2]
      · have hh1 : lookupA (e :: (l ++ [(k, v)])) c = lookupA (l ++ [(k, v)]) c := by
          rw [lookupA, lookupA, List.find?_cons_of_neg _ (by simp [hec])]
        have hh2 : lookupA (e :: l) c = lookupA l c := by
          rw [lookupA, lookupA, List.find?_cons_of_neg _ (by simp [hec])]
        rw [hh1, hh2]
        exact ih

theorem lookupD_setA_self {α : Type} (l : List (Int × α)) (k : Int) (v d : α) :
    lookupD (setA l k v) k d = v := by
  rw [lookupD, lookupA_setA_self]
  rfl

theorem lookupD_setA_ne {α : Type} (l : List (Int × α)) (k c : Int) (hck : c ≠ k)
    (v d : α) : lookupD (setA l k v) c d = lookupD l c d := by
  rw [lookupD, lookupA_setA_ne k c hck, lookupD]

/-- Inverting a successful `cast_vote`: the new state is exactly the
three-field update performed by the route. -/
theorem cast_vote_ok_inv (st : VState) (v c now : Int) (st2 : VState) (msg : String)
    (h : cast_vote st v c now = .ok (st2, msg)) :
    st2 = { st with
      candidate_votes := setA st.candidate_votes c (lookupD st.candidate_votes c 0 + 1),
      voter_voted := fun x => if x = v then true else st.voter_voted x,
      vote_timeline := fun c0 =>
        if c0 = c then st.vote_timeline c0 ++ [⟨v, now, 1⟩]
        else st.vote_timeline c0 } := by
  rw [cast_vote] at h
  split at h
  · exact Except.noConfusion h
  · split at h
    · exact Except.noConfusion h
    · split at h
      · exact Except.noConfusion h
      · split at h
        · exact Except.noConfusion h
        · simp only [Except.ok.injEq, Prod.mk.injEq] at h
          exact h.1.symm

/-- Inverting a successful `cast_weighted_vote`. -/
theorem cast_weighted_vote_ok_inv (st : VState) (v c : Int) (profile : Bool) (now : Int)
    (st2 : VState) (msg : String)
    (h : cast_weighted_vote st v c profile now = .ok (st2, msg)) :
    st2 = { st with
      candidate_votes := setA st.candidate_votes c
        (lookupD st.candidate_votes c 0 + (if profile then 2 else 1)),
      voter_voted := fun x => if x = v then true else st.voter_voted x,
      vote_timeline := fun c0 =>
        if c0 = c then st.vote_timeline c0 ++ [⟨v, now, if profile then 2 else 1⟩]
        else st.vote_timeline c0 } := by
  rw [cast_weighted_vote] at h
  split at h
  · exact Except.noConfusion h
  · split at h
    · exact Except.noConfusion h
    · split at h
      · exact Except.noConfusion h
      · split at h
        · exact Except.noConfusion h
        · simp only [Except.ok.injEq, Prod.mk.injEq] at h
          exact h.1.symm

/-- The route's three-field vote update preserves the tally invariant. -/
theorem TallyInv_update (st : VState) (c v now : Int) (w : Nat) (f : Int → Bool)
    (h : TallyInv st) :
    TallyInv { st with
      candidate_votes := setA st.candidate_votes c (lookupD st.candidate_votes c 0 + w),
      voter_voted := f,
      vote_timeline := fun c0 =>
        if c0 = c then st.vote_timeline c0 ++ [⟨v, now, w⟩]
        else st.vote_timeline c0 } := by
  intro c0
  show lookupD (setA st.candidate_votes c (lookupD st.candidate_votes c 0 + w)) c0 0 =
    ((if c0 = c then st.vote_timeline c0 ++ [⟨v, now, w⟩]
      else st.vote_timeline c0).map (fun r => r.weight)).sum
  by_cases hc0 : c0 = c
  · rw [hc0, if_pos rfl, lookupD_setA_self, List.map_append, List.sum_append, h c]
    rfl
  · rw [if_neg hc0, lookupD_setA_ne st.candidate_votes c c0 hc0]
    exact h c0

theorem tallyInv_stepOp (st : VState) (op : VOp) (h : TallyInv st) :
    TallyInv (stepOp st op) := by
  cases op with
  | plain v c now =>
    have hdef : stepOp st (VOp.plain v c now) =
        (match cast_vote st v c now with
          | .ok (st2, _) => st2
          | .error _ => st) := rfl
    rw [hdef]
    cases hcv : cast_vote st v c now with
    | error e => exact h
    | ok pr =>
      obtain ⟨st2, msg⟩ := pr
      show TallyInv st2
      rw [cast_vote_ok_inv st v c now st2 msg hcv]
      exact TallyInv_update st c v now 1 _ h
  | weighted v c profile now =>
    have hdef : stepOp st (VOp.weighted v c profile now) =
        (match cast_weighted_vote st v c profile now with
          | .ok (st2, _) => st2
          | .error _ => st) := rfl
    rw [hdef]
    cases hcv : cast_weighted_vote st v c profile now with
    | error e => exact h
    | ok pr =>
      obtain ⟨st2, msg⟩ := pr
      show TallyInv st2
      rw [cast_weighted_vote_ok_inv st v c profile now st2 msg hcv]
      exact TallyInv_update st c v now (if profile then 2 else 1) _ h

theorem tallyInv_runOps :
    ∀ (ops : List VOp) (st : VState), TallyInv st → TallyInv (runOps st ops) := by
  intro ops
  induction ops with
  | nil => intro st h; exact h
  | cons op ops ih =>
    intro st h
    show TallyInv (runOps (stepOp st op) ops)
    exact ih (stepOp st op) (tallyInv_stepOp st op h)

/-- C4.  For every sequence of `cast_vote` / `cast_weighted_vote`
operations (accepted or rejected) run from the initial empty tally state
with arbitrary registries, and for every candidate id, the stored tally
(0 if absent) equals the sum of the weights of the records in that
candidate's timeline; since the operation list is arbitrary, the
invariant holds after every prefix, i.e. after every operation. -/
theorem c4_tally_is_cache (voters : List (Int × Voter))
    (cands : List (Int × Candidate)) (ops : List VOp) :
    TallyInv (runOps (initVState voters cands) ops) := by
  have hbase : TallyInv (initVState voters cands) := by
    intro c
    simp [initVState, lookupD, lookupA]
  exact tallyInv_runOps ops _ hbase

/-! ## Claim C5 -/

/-- Counterexample to C5 as stated: after voter 1's accepted plurality
vote, a second plurality submission by voter 1 naming the unregistered
candidate 99 fails with the candidate-not-found error (the duplicate
check runs last in `cast_vote`), not the duplicate-ballot error. -/
theorem c5_counterexample :
    cast_vote c5VotedState 1 99 5 = .error (404, "Candidate not found.") ∧
    (404, "Candidate not found.") ≠ ((409 : Nat), "Voter has already cast a vote.") :=
  ⟨rfl, by decide⟩

/-- C5, amended.  A second submission by a voter for a given ballot kind
always fails and leaves that kind's store unchanged; the failure is the
duplicate-ballot error unconditionally for ranked and encrypted ballots
(their duplicate check runs first), and for the plurality kind whenever
the voter-exists, age, and candidate-exists checks pass (otherwise that
earlier check's error is raised instead).  Each kind's rule reads only
its own marker set: a fresh voter succeeds for one kind regardless of
the other kinds' stores. -/
theorem c5_duplicate_rules :
    (∀ (st : VState) (v c now : Int), st.voter_voted v = true →
      ∃ e, cast_vote st v c now = .error e) ∧
    (∀ (st : VState) (v c : Int) (p : Bool) (now : Int), st.voter_voted v = true →
      ∃ e, cast_weighted_vote st v c p now = .error e) ∧
    (∀ (st : VState) (v c now : Int) (vr : Voter), st.voter_voted v = true →
      lookupA st.voters v = some vr → ¬ vr.age < 18 →
      (lookupA st.candidates c).isSome →
      cast_vote st v c now = .error (409, "Voter has already cast a vote.")) ∧
    (∀ (st : VState) (v c : Int) (p : Bool) (now : Int) (vr : Voter),
      st.voter_voted v = true →
      lookupA st.voters v = some vr → ¬ vr.age < 18 →
      (lookupA st.candidates c).isSome →
      cast_weighted_vote st v c p now =
        .error (409, "Voter has already cast a vote.")) ∧
    (∀ (st : VState) (v c now : Int), st.voter_voted v = true →
      stepOp st (VOp.plain v c now) = st) ∧
    (∀ (st : VState) (v c : Int) (p : Bool) (now : Int), st.voter_voted v = true →
      stepOp st (VOp.weighted v c p now) = st) ∧
    (∀ (st : BState) (b : RankedBallot), st.ranked_voter_set b.voter_id = true →
      submit_ranked_ballot st b =
        .error (409, "Voter has already submitted a ranked ballot.") ∧
      stepRanked st b = st) ∧
    (∀ (st : BState) (b : EncryptedBallot), st.encrypted_voter_set b.voter_id = true →
      submit_encrypted_ballot st b =
        .error (409, "Voter has already submitted an encrypted ballot.") ∧
      stepEncrypted st b = st) ∧
    (∀ (st : BState) (b : RankedBallot), st.ranked_voter_set b.voter_id = false →
      ∃ st2 n, submit_ranked_ballot st b = .ok (st2, n)) ∧
    (∀ (st : BState) (b : EncryptedBallot), st.encrypted_voter_set b.voter_id = false →
      b.ciphertext ≠ "" → b.proof ≠ "" →
      ∃ st2 n, submit_encrypted_ballot st b = .ok (st2, n)) := by
  have hplain : ∀ (st : VState) (v c now : Int), st.voter_voted v = true →
      ∃ e, cast_vote st v c now = .error e := by
    intro st v c now hv
    rw [cast_vote]
    cases lookupA st.voters v with
    | none => exact ⟨(404, "Voter not found."), rfl⟩
    | some vr =>
      dsimp only
      by_cases h1 : vr.age < 18
      · rw [if_pos h1]
        exact ⟨_, rfl⟩
      · rw [if_neg h1]
        by_cases h2 : (lookupA st.candidates c).isNone
        · rw [if_pos h2]
          exact ⟨_, rfl⟩
        · rw [if_neg h2, if_pos hv]
          exact ⟨_, rfl⟩
  have hweighted : ∀ (st : VState) (v c : Int) (p : Bool) (now : Int),
      st.voter_voted v = true → ∃ e, cast_weighted_vote st v c p now = .error e := by
    intro st v c p now hv
    rw [cast_weighted_vote]
    cases lookupA st.voters v with
    | none => exact ⟨(404, "Voter not found."), rfl⟩
    | some vr =>
      dsimp only
      by_cases h1 : vr.age < 18
      · rw [if_pos h1]
        exact ⟨_, rfl⟩
      · rw [if_neg h1]
        by_cases h2 : (lookupA st.candidates c).isNone
        · rw [if_pos h2]
          exact ⟨_, rfl⟩
        · rw [if_neg h2, if_pos hv]
          exact ⟨_, rfl⟩
  refine ⟨hplain, hweighted, ?_, ?_, ?_, ?_, ?_, ?_, ?_, ?_⟩
  · intro st v c now vr hv hvr h18 hcand
    rcases Option.isSome_iff_exists.mp hcand with ⟨cv, hcv⟩
    rw [cast_vote, hvr]
    dsimp only
    rw [if_neg h18, hcv]
    rw [if_neg (by simp), if_pos hv]
  · intro st v c p now vr hv hvr h18 hcand
    rcases Option.isSome_iff_exists.mp hcand with ⟨cv, hcv⟩
    rw [cast_weighted_vote, hvr]
    dsimp only
    rw [if_neg h18, hcv]
    rw [if_neg (by simp), if_pos hv]
  · intro st v c now hv
    rcases hplain st v c now hv with ⟨e, he⟩
    have hdef : stepOp st (VOp.plain v c now) =
        (match cast_vote st v c now with
          | .ok (st2, _) => st2
          | .error _ => st) := rfl
    rw [hdef, he]
  · intro st v c p now hv
    rcases hweighted st v c p now hv with ⟨e, he⟩
    have hdef : stepOp st (VOp.weighted v c p now) =
        (match cast_weighted_vote st v c p now with
          | .ok (st2, _) => st2
          | .error _ => st) := rfl
    rw [hdef, he]
  · intro st b hv
    have herr : submit_ranked_ballot st b =
        .error (409, "Voter has already submitted a ranked ballot.") := by
      rw [submit_ranked_ballot, if_pos hv]
    refine ⟨herr, ?_⟩
    have hdef : stepRanked st b =
        (match submit_ranked_ballot st b with
          | .ok (st2, _) => st2
          | .error _ => st) := rfl
    rw [hdef, herr]
  · intro st b hv
    have herr : submit_encrypted_ballot st b =
        .error (409, "Voter has already submitted an encrypted ballot.") := by
      rw [submit_encrypted_ballot, if_pos hv]
    refine ⟨herr, ?_⟩
    have hdef : stepEncrypted st b =
        (match submit_encrypted_ballot st b with
          | .ok (st2, _) => st2
          | .error _ => st) := rfl
    rw [hdef, herr]
  · intro st b hv
    rw [submit_ranked_ballot, if_neg (by rw [hv]; exact Bool.false_ne_true)]
    exact ⟨_, _, rfl⟩
  · intro st b hv hc hp
    rw [submit_encrypted_ballot, if_neg (by rw [hv]; exact Bool.false_ne_true),
      if_neg (fun h => h.elim hc hp)]
    exact ⟨_, _, rfl⟩

/-- Concrete instantiation of the amended C5: voter 1, having submitted
both kinds of ballot into `c5BState`, is rejected with the duplicate
error on resubmission of each kind. -/
theorem c5_witness :
    submit_ranked_ballot c5BState ⟨1, [3, 4]⟩ =
      .error (409, "Voter has already submitted a ranked ballot.") ∧
    submit_encrypted_ballot c5BState ⟨1, 10, "x", "y"⟩ =
      .error (409, "Voter has already submitted an encrypted ballot.") :=
  ⟨(c5_duplicate_rules.2.2.2.2.2.2.1 c5BState ⟨1, [3, 4]⟩ rfl).1,
   (c5_duplicate_rules.2.2.2.2.2.2.2.1 c5BState ⟨1, 10, "x", "y"⟩ rfl).1⟩

/-! ## Claim C6 -/

theorem acc_le_foldl_max : ∀ (l : List Nat) (acc : Nat), acc ≤ l.foldl max acc := by
  intro l
  induction l with
  | nil => intro acc; exact le_rfl
  | cons a l ih =>
    intro acc
    exact le_trans (le_max_left acc a) (ih (max acc a))

theorem le_foldl_max_of_mem :
    ∀ (l : List Nat) (acc v : Nat), v ∈ l → v ≤ l.foldl max acc := by
  intro l
  induction l with
  | nil => intro acc v hv; exact absurd hv (List.not_mem_nil v)
  | cons a l ih =>
    intro acc v hv
    rcases List.mem_cons.mp hv with hv | hv
    · rw [hv]
      exact le_trans (le_max_right acc a) (acc_le_foldl_max l (max acc a))
    · exact ih (max acc a) v hv

theorem foldl_max_mem :
    ∀ (l : List Nat) (acc : Nat), l.foldl max acc = acc ∨ l.foldl max acc ∈ l := by
  intro l
  induction l with
  | nil => intro acc; exact Or.inl rfl
  | cons a l ih =>
    intro acc
    have hstep : (a :: l).foldl max acc = l.foldl max (max acc a) := rfl
    rcases ih (max acc a) with h | h
    · by_cases haa : acc ≤ a
      · right
        rw [hstep, h, max_eq_right haa]
        exact List.mem_cons_self a l
      · left
        rw [hstep, h, max_eq_left (le_of_not_le haa)]
    · right
      rw [hstep]
      exact List.mem_cons_of_mem a h

/-- For a non-empty list, `max(values, default=0)` is attained. -/
theorem maxValues_mem (l : List Nat) (h : l ≠ []) : maxValues l ∈ l := by
  rcases foldl_max_mem l 0 with h0 | h0
  · cases l with
    | nil => exact absurd rfl h
    | cons a l2 =>
      have ha : a ≤ (a :: l2).foldl max 0 :=
        le_foldl_max_of_mem (a :: l2) 0 a (List.mem_cons_self a l2)
      rw [h0] at ha
      have ha0 : a = 0 := Nat.le_zero.mp ha
      rw [maxValues, h0, ← ha0]
      exact List.mem_cons_self a l2
  · rw [maxValues]
    exact h0

theorem le_maxValues (l : List Nat) (v : Nat) (h : v ∈ l) : v ≤ maxValues l :=
  le_foldl_max_of_mem l 0 v h

theorem lookupA_isSome_of_mem {α : Type} (k : Int) (a : α) :
    ∀ l : List (Int × α), (k, a) ∈ l → (lookupA l k).isSome := by
  intro l
  induction l with
  | nil => intro h; exact absurd h (List.not_mem_nil _)
  | cons e l ih =>
    intro h
    by_cases he : e.1 = k
    · rw [lookupA, List.find?_cons_of_pos _ (by simp [he])]
      rfl
    · rw [lookupA, List.find?_cons_of_neg _ (by simp [he])]
      rcases List.mem_cons.mp h with h1 | h1
      · exact absurd (congrArg Prod.fst h1.symm) he
      · have := ih h1
        rwa [lookupA] at this

theorem lookupA_eq_some_mem {α : Type} (l : List (Int × α)) (k : Int) (a : α)
    (h : lookupA l k = some a) : ∃ e ∈ l, e.1 = k ∧ e.2 = a := by
  rw [lookupA] at h
  cases hf : l.find? (fun e => decide (e.1 = k)) with
  | none =>
    rw [hf] at h
    exact Option.noConfusion h
  | some e =>
    rw [hf] at h
    have hek : e.1 = k := by simpa using List.find?_some hf
    refine ⟨e, List.mem_of_find?_eq_some hf, hek, ?_⟩
    simpa using h

theorem mem_setA {α : Type} (l : List (Int × α)) (k : Int) (v : α) :
    ∀ e ∈ setA l k v, e ∈ l ∨ e = (k, v) := by
  intro e he
  rw [setA] at he
  split_ifs at he with h
  · rcases List.mem_map.mp he with ⟨a, ha, hae⟩
    by_cases hak : a.1 = k
    · rw [if_pos hak] at hae
      exact Or.inr hae.symm
    · rw [if_neg hak] at hae
      exact Or.inl (hae ▸ ha)
  · rcases List.mem_append.mp he with h1 | h1
    · exact Or.inl h1
    · rcases List.mem_cons.mp h1 with h2 | h2
      · exact Or.inr h2
      · exact absurd h2 (List.not_mem_nil e)

/-- Every stored tally value in a reachable store is positive (weights
are 1 or 2 and values only ever increase). -/
theorem posVals_stepOp (st : VState) (op : VOp)
    (h : ∀ e ∈ st.candidate_votes, 1 ≤ e.2) :
    ∀ e ∈ (stepOp st op).candidate_votes, 1 ≤ e.2 := by
  cases op with
  | plain v c now =>
    have hdef : stepOp st (VOp.plain v c now) =
        (match cast_vote st v c now with
          | .ok (st2, _) => st2
          | .error _ => st) := rfl
    rw [hdef]
    cases hcv : cast_vote st v c now with
    | error e => exact h
    | ok pr =>
      obtain ⟨st2, msg⟩ := pr
      show ∀ e ∈ st2.candidate_votes, 1 ≤ e.2
      rw [cast_vote_ok_inv st v c now st2 msg hcv]
      intro e he
      rcases mem_setA st.candidate_votes c (lookupD st.candidate_votes c 0 + 1) e he with
        h1 | h1
      · exact h e h1
      · rw [h1]
        omega
  | weighted v c p now =>
    have hdef : stepOp st (VOp.weighted v c p now) =
        (match cast_weighted_vote st v c p now with
          | .ok (st2, _) => st2
          | .error _ => st) := rfl
    rw [hdef]
    cases hcv : cast_weighted_vote st v c p now with
    | error e => exact h
    | ok pr =>
      obtain ⟨st2, msg⟩ := pr
      show ∀ e ∈ st2.candidate_votes, 1 ≤ e.2
      rw [cast_weighted_vote_ok_inv st v c p now st2 msg hcv]
      intro e he
      rcases mem_setA st.candidate_votes c
          (lookupD st.candidate_votes c 0 + (if p then 2 else 1)) e he with h1 | h1
      · exact h e h1
      · rw [h1]
        by_cases hp : p
        · rw [if_pos hp]
          omega
        · rw [if_neg hp]
          omega

theorem posVals_runOps :
    ∀ (ops : List VOp) (st : VState), (∀ e ∈ st.candidate_votes, 1 ≤ e.2) →
      ∀ e ∈ (runOps st ops).candidate_votes, 1 ≤ e.2 := by
  intro ops
  induction ops with
  | nil => intro st h; exact h
  | cons op ops ih =>
    intro st h
    exact ih (stepOp st op) (posVals_stepOp st op h)

/-- C6.  `get_winner` fails with the no-votes error exactly when the
tally dict is empty; on reachable stores dict-emptiness coincides with
"no candidate has any recorded weight"; on success the returned maximum
is the greatest recorded weight (and is attained), and the winner list
holds exactly the registered candidates whose recorded weight equals
that maximum; with totals A=10, B=10, C=5 the result is winners {A, B}
with max_votes = 10. -/
theorem c6_winner_characterization :
    (∀ st : VState,
      (get_winner st = .error (404, "No votes have been cast yet.") ↔
        st.candidate_votes = [])) ∧
    (∀ (voters : List (Int × Voter)) (cands : List (Int × Candidate)) (ops : List VOp),
      ((runOps (initVState voters cands) ops).candidate_votes = [] ↔
        ∀ c, lookupD (runOps (initVState voters cands) ops).candidate_votes c 0 = 0)) ∧
    (∀ (st : VState) (r : WinnerResult),
      (∀ e ∈ st.candidates, (e.2).candidate_id = e.1) →
      get_winner st = .ok r →
      (r.max_votes ∈ st.candidate_votes.map (fun e => e.2) ∧
       (∀ v ∈ st.candidate_votes.map (fun e => e.2), v ≤ r.max_votes) ∧
       (∀ cid : Int, (∃ e ∈ r.winners, e.candidate_id = cid) ↔
         ((lookupA st.candidates cid).isSome ∧
           lookupD st.candidate_votes cid 0 = r.max_votes)))) ∧
    get_winner c6State =
      .ok ⟨[⟨10, "A", some "P", 10⟩, ⟨11, "B", some "Q", 10⟩], 10⟩ := by
  refine ⟨?_, ?_, ?_, rfl⟩
  · intro st
    rw [get_winner]
    by_cases h : st.candidate_votes.isEmpty
    · rw [if_pos h]
      exact iff_of_true rfl (List.isEmpty_iff.mp h)
    · rw [if_neg h]
      exact iff_of_false (fun hc => Except.noConfusion hc)
        (fun hc => h (by rw [hc]; rfl))
  · intro voters cands ops
    have hpos : ∀ e ∈ (runOps (initVState voters cands) ops).candidate_votes, 1 ≤ e.2 :=
      posVals_runOps ops (initVState voters cands)
        (by intro e he; exact absurd he (List.not_mem_nil e))
    constructor
    · intro h0 c
      rw [h0]
      rfl
    · intro hall
      cases hcv : (runOps (initVState voters cands) ops).candidate_votes with
      | nil => rfl
      | cons e rest =>
        have h1 := hall e.1
        rw [hcv] at h1
        have h2 : lookupD (e :: rest) e.1 0 = e.2 := by
          rw [lookupD, lookupA, List.find?_cons_of_pos _ (by simp)]
          rfl
        rw [h2] at h1
        have h3 : 1 ≤ e.2 := hpos e (by rw [hcv]; exact List.mem_cons_self e rest)
        omega
  · intro st r hkeys hok
    have hne : ¬ st.candidate_votes.isEmpty := by
      intro h
      rw [get_winner, if_pos h] at hok
      exact Except.noConfusion hok
    have hnil : st.candidate_votes ≠ [] := fun h => hne (by rw [h]; rfl)
    rw [get_winner, if_neg hne] at hok
    simp only [Except.ok.injEq] at hok
    subst hok
    refine ⟨?_, ?_, ?_⟩
    · exact maxValues_mem _ (fun h => hnil (List.map_eq_nil_iff.mp h))
    · intro v hv
      exact le_maxValues _ v hv
    · intro cid
      constructor
      · rintro ⟨e, he, heid⟩
        rcases List.mem_filterMap.mp he with ⟨c0, hc0, hf⟩
        rcases List.mem_map.mp hc0 with ⟨kc, hkc, hkc2⟩
        by_cases hcond : lookupD st.candidate_votes c0.candidate_id 0 =
            maxValues (st.candidate_votes.map (fun e => e.2))
        · rw [if_pos hcond] at hf
          have he1 : e.candidate_id = c0.candidate_id := by
            injection hf with hf2
            rw [← hf2]
          have hc0id : c0.candidate_id = kc.1 := hkc2 ▸ hkeys kc hkc
          have hcid : kc.1 = cid := by rw [← hc0id, ← he1, heid]
          constructor
          · have : (kc.1, kc.2) ∈ st.candidates := by
              rw [Prod.mk.eta]
              exact hkc
            exact hcid ▸ lookupA_isSome_of_mem kc.1 kc.2 st.candidates this
          · rw [← hcid, ← hc0id]
            exact hcond
        · rw [if_neg hcond] at hf
          exact Option.noConfusion hf
      · rintro ⟨hsome, hvotes⟩
        rcases Option.isSome_iff_exists.mp hsome with ⟨cand, hcand⟩
        rcases lookupA_eq_some_mem st.candidates cid cand hcand with ⟨e0, he0, he0k, he0v⟩
        have hcid : cand.candidate_id = cid := by
          rw [← he0k, ← he0v]
          exact hkeys e0 he0
        refine ⟨⟨cand.candidate_id, cand.name, cand.party,
          lookupD st.candidate_votes cand.candidate_id 0⟩, ?_, hcid⟩
        apply List.mem_filterMap.mpr
        refine ⟨cand, List.mem_map.mpr ⟨e0, he0, he0v⟩, ?_⟩
        rw [if_pos (by rw [hcid]; exact hvotes)]

/-- Concrete instantiation of C6's success characterization at the
A=10, B=10, C=5 store. -/
theorem c6_witness :
    ((10 : Nat) ∈ c6State.candidate_votes.map (fun e => e.2) ∧
     (∀ v ∈ c6State.candidate_votes.map (fun e => e.2), v ≤ (10 : Nat)) ∧
     (∀ cid : Int,
       (∃ e ∈ ([⟨10, "A", some "P", 10⟩, ⟨11, "B", some "Q", 10⟩] : List WinnerEntry),
          e.candidate_id = cid) ↔
       ((lookupA c6State.candidates cid).isSome ∧
         lookupD c6State.candidate_votes cid 0 = 10))) :=
  c6_winner_characterization.2.2.1 c6State
    ⟨[⟨10, "A", some "P", 10⟩, ⟨11, "B", some "Q", 10⟩], 10⟩
    (by decide) rfl

/-! ## Claim C7 -/

/-- C7.  For a registered candidate and timestamps `f ≤ t`, the range
query succeeds and returns exactly the timeline events with
`f ≤ timestamp ≤ t` (a membership characterization plus the exclusion of
out-of-range events), in stored order (a sublist of the timeline), with
`total_weight` the sum of exactly the returned events' weights. -/
theorem c7_range_query (st : VState) (cid f t : Int) (_hft : f ≤ t)
    (c0 : Candidate) (hc0 : lookupA st.candidates cid = some c0) :
    ∃ r, get_votes_in_range st cid f t = .ok r ∧
      r.votes_in_range = (st.vote_timeline cid).filter
        (fun rec => decide (f ≤ rec.timestamp) && decide (rec.timestamp ≤ t)) ∧
      (∀ rec : VoteRecord, rec ∈ r.votes_in_range ↔
        (rec ∈ st.vote_timeline cid ∧ f ≤ rec.timestamp ∧ rec.timestamp ≤ t)) ∧
      List.Sublist r.votes_in_range (st.vote_timeline cid) ∧
      r.total_weight = (r.votes_in_range.map (fun rec => rec.weight)).sum := by
  rw [get_votes_in_range, hc0]
  refine ⟨_, rfl, rfl, ?_, ?_, rfl⟩
  · intro rec
    simp only [List.mem_filter, Bool.and_eq_true, decide_eq_true_eq]
  · exact List.filter_sublist _

/-- Concrete instantiation of C7 at a timeline with an event (time 99)
outside the queried range [0, 10]. -/
theorem c7_witness :
    ∃ r, get_votes_in_range c7State 10 0 10 = .ok r ∧
      r.votes_in_range = (c7State.vote_timeline 10).filter
        (fun rec => decide ((0 : Int) ≤ rec.timestamp) && decide (rec.timestamp ≤ 10)) ∧
      (∀ rec : VoteRecord, rec ∈ r.votes_in_range ↔
        (rec ∈ c7State.vote_timeline 10 ∧ 0 ≤ rec.timestamp ∧ rec.timestamp ≤ 10)) ∧
      List.Sublist r.votes_in_range (c7State.vote_timeline 10) ∧
      r.total_weight = (r.votes_in_range.map (fun rec => rec.weight)).sum :=
  c7_range_query c7State 10 0 10 (by decide) ⟨10, "A", some "P"⟩ rfl

/-! ## Claim C8 -/

/-- Counterexample to C8 as stated: at totalBallots = 1 and
riskLimit = -1/2 (a dyadic value on which binary floating point is
exact) the route returns `int(-0.5) + 1 = 1`, while the claimed
`floor(-0.5) + 1` is `0`: Python `int()` truncates toward zero, it is
not `floor`. -/
theorem c8_counterexample :
    risk_limiting_audit 1 (-(1/2) : ℚ) =
      .ok ⟨1, -(1/2), 1, "Kaplan-Markov (simulated)"⟩ ∧
    (⌊((1 : Int) : ℚ) * (-(1/2) : ℚ)⌋ + 1 : Int) = 0 ∧ (1 : Int) ≠ 0 := by
  refine ⟨?_, by norm_num, by decide⟩
  rw [risk_limiting_audit, if_neg (by decide)]
  have h : pyint (((1 : Int) : ℚ) * (-(1/2) : ℚ)) = 0 := by
    rw [pyint, if_neg (by norm_num)]
    norm_num
  rw [h]
  rfl

/-- C8, amended.  `risk_limiting_audit` fails with the
invalid-ballot-count error iff totalBallots ≤ 0, touches no store (it is
a pure function of its request), and otherwise returns
`trunc(totalBallots × riskLimit) + 1` where `trunc` is truncation toward
zero (Python `int()`); this equals `floor(...) + 1` whenever the product
is non-negative — in particular for every riskLimit ≥ 0 — and
1000 ballots at riskLimit 1/10 yield 101, while 0 ballots fail. -/
theorem c8_audit_plan :
    (∀ (total : Int) (risk : ℚ),
      (risk_limiting_audit total risk = .error (400, "Invalid total ballot count.") ↔
        total ≤ 0) ∧
      (0 < total →
        risk_limiting_audit total risk =
          .ok ⟨total, risk, pyint ((total : ℚ) * risk) + 1, "Kaplan-Markov (simulated)"⟩) ∧
      (0 ≤ (total : ℚ) * risk → pyint ((total : ℚ) * risk) = ⌊(total : ℚ) * risk⌋)) ∧
    risk_limiting_audit 1000 (1/10) =
      .ok ⟨1000, 1/10, 101, "Kaplan-Markov (simulated)"⟩ ∧
    risk_limiting_audit 0 (1/10) = .error (400, "Invalid total ballot count.") := by
  refine ⟨?_, ?_, rfl⟩
  case refine_2 =>
    rw [risk_limiting_audit, if_neg (by decide)]
    have h : pyint (((1000 : Int) : ℚ) * (1/10 : ℚ)) = 100 := by
      rw [pyint, if_pos (by norm_num)]
      norm_num
    rw [h]
    rfl
  intro total risk
  refine ⟨?_, ?_, ?_⟩
  · rw [risk_limiting_audit]
    by_cases h : total ≤ 0
    · rw [if_pos h]
      exact iff_of_true rfl h
    · rw [if_neg h]
      exact iff_of_false (fun hc => Except.noConfusion hc) h
  · intro h
    rw [risk_limiting_audit, if_neg (by omega)]
  · intro h
    rw [pyint, if_pos h]

/-- Concrete instantiation of the amended C8. -/
theorem c8_witness :
    risk_limiting_audit 1000 (1/10) =
      .ok ⟨1000, 1/10, pyint (((1000 : Int) : ℚ) * (1/10 : ℚ)) + 1,
           "Kaplan-Markov (simulated)"⟩ :=
  (c8_audit_plan.1 1000 (1/10)).2.1 (by decide)

/-! ## Claims C9 and C10 -/

theorem dp_sigma_eq (eps : ℚ) :
    (if 0 < eps then pydiv 1 eps else some 1) =
      some (if 0 < eps then 1 / eps else 1) := by
  by_cases h : 0 < eps
  · rw [if_pos h, if_pos h, pydiv, if_neg (ne_of_gt h)]
  · rw [if_neg h, if_neg h]

/-- The full input-output equation of the noised counter (helper shared
by the claims about it). -/
theorem dp_query_eq (ballots : List EncryptedBallot) (cid : Int) (eps : ℚ)
    (gauss : ℚ → ℚ → ℚ) :
    differential_privacy_query ballots cid eps gauss =
      some ⟨cid, (ballots.filter (fun b => decide (b.candidate_id = cid))).length,
        max 0 (pyround
          (((ballots.filter (fun b => decide (b.candidate_id = cid))).length : ℚ) +
            gauss 0 (if 0 < eps then 1 / eps else 1))),
        eps⟩ := by
  rw [differential_privacy_query, dp_sigma_eq]

/-- C9.  The noised count returns trueCount = number of stored encrypted
ballots naming the candidate, draws the noise at mean 0 with scale
1/epsilon when epsilon > 0 and 1.0 otherwise, and returns
noisyCount = max(0, round(trueCount + noise)) (Python banker's
rounding), which is never negative. -/
theorem c9_dp_formula (ballots : List EncryptedBallot) (cid : Int) (eps : ℚ)
    (gauss : ℚ → ℚ → ℚ) :
    differential_privacy_query ballots cid eps gauss =
      some ⟨cid, (ballots.filter (fun b => decide (b.candidate_id = cid))).length,
        max 0 (pyround
          (((ballots.filter (fun b => decide (b.candidate_id = cid))).length : ℚ) +
            gauss 0 (if 0 < eps then 1 / eps else 1))),
        eps⟩ ∧
    (∀ r, differential_privacy_query ballots cid eps gauss = some r →
      0 ≤ r.noisy_count) := by
  refine ⟨dp_query_eq ballots cid eps gauss, ?_⟩
  intro r hr
  rw [dp_query_eq ballots cid eps gauss] at hr
  injection hr with hr2
  rw [← hr2]
  exact le_max_left 0 _

/-- Concrete instantiation of C9's non-negativity at a positive noise
draw. -/
theorem c9_witness :
    (0 : Int) ≤ ((differential_privacy_query [⟨1, 7, "c", "p"⟩] 7 (1/2)
        (fun _ _ => 3)).getD ⟨0, 0, 0, 0⟩).noisy_count :=
  (c9_dp_formula [⟨1, 7, "c", "p"⟩] 7 (1/2) (fun _ _ => 3)).2 _
    (by rw [(c9_dp_formula [⟨1, 7, "c", "p"⟩] 7 (1/2) (fun _ _ => 3)).1]; rfl)

/-- C10.  `differential_privacy_query` never fails: for every candidate
id (registered or not — it consults no registry), every epsilon
(including 0 and negatives: the guarded conditional keeps the division
away from 0), and every draw, it returns a result, whose trueCount is 0
when no stored encrypted ballot matches. -/
theorem c10_dp_never_fails (ballots : List EncryptedBallot) (cid : Int) (eps : ℚ)
    (gauss : ℚ → ℚ → ℚ) :
    ∃ r, differential_privacy_query ballots cid eps gauss = some r ∧
      r.true_count = (ballots.filter (fun b => decide (b.candidate_id = cid))).length ∧
      ((∀ b ∈ ballots, b.candidate_id ≠ cid) → r.true_count = 0) := by
  refine ⟨_, dp_query_eq ballots cid eps gauss, rfl, ?_⟩
  intro h
  show (ballots.filter (fun b => decide (b.candidate_id = cid))).length = 0
  have hnil : ballots.filter (fun b => decide (b.candidate_id = cid)) = [] := by
    rw [List.filter_eq_nil_iff]
    intro b hb
    simpa using h b hb
  rw [hnil]
  rfl

/-- Concrete instantiation of C10 at an unregistered candidate id and a
non-positive epsilon. -/
theorem c10_witness :
    ∃ r, differential_privacy_query [⟨1, 7, "c", "p"⟩] 99 (-1) (fun _ _ => 3) = some r ∧
      r.true_count =
        (([⟨1, 7, "c", "p"⟩] : List EncryptedBallot).filter
          (fun b => decide (b.candidate_id = 99))).length ∧
      ((∀ b ∈ ([⟨1, 7, "c", "p"⟩] : List EncryptedBallot), b.candidate_id ≠ 99) →
        r.true_count = 0) :=
  c10_dp_never_fails [⟨1, 7, "c", "p"⟩] 99 (-1) (fun _ _ => 3)

end Elect
